import Mathlib

/-!
# Shallow embedding of the MSM core of `src/multiexp.rs`

This file embeds the multi-scalar-multiplication (MSM) core of the repository:
the windowed Pippenger scheduler (`multiexp`, `multiexp_inner`), the dense
lock-merged variant (`dense_multiexp`), the affine batched-inversion
accumulator (`affine_multiexp_inner`, `reduce`), the reference-based pairwise
tree reducer (`dense_affine_multiexp_inner_by_ref`, `reduce_by_ref`) and the
chunk joiner (`join_chunks`).

Modelling conventions, following §1/§6 of the spec (curve and field
primitives are external collaborators used as black boxes):

* Projective curve points are modelled as elements of an abstract additive
  commutative group `G`; `add_assign` / `add_assign_mixed` are `+`,
  `G::Projective::zero()` is `0`, `double` is `x + x`.
* Scalar big-integer representations (`PrimeField::Repr`) are modelled as `ℕ`;
  `shr` is `Nat.shiftRight` and reading the low 64-bit word (`as_ref()[0]`) is
  `% 2 ^ 64`.
* Affine points, where the code manipulates their raw coordinates
  (`into_xy_unchecked` / `from_xy_unchecked`), are modelled as pairs `F × F`
  over an abstract field `F`; mixed addition of an affine point into a
  projective accumulator is modelled through an abstract coordinate-to-group
  map `φ : F × F → G`.
* A Rust `panic!` / `.unwrap()` failure is modelled as `Option.none`; a
  returned `Result::Err` is an `Except.error`.
* The worker pool runs each window task to completion and `join_all` collects
  the results in dispatch order; tasks share no mutable state, so they are
  modelled as direct evaluation.
-/

/-- Modelled from the source's use of `super::SynthesisError` (the enum itself
lives outside `src/`): only the two variants constructed by `multiexp.rs` are
needed, `AssignmentMissing` (missing/mismatched assignment, source exhaustion)
and `DivisionByZero` (batched inversion of a zero product). -/
inductive SynthesisError where
  | assignmentMissing
  | divisionByZero
  deriving DecidableEq, Repr

instance {ε α : Type} [DecidableEq ε] [DecidableEq α] : DecidableEq (Except ε α)
  | .ok a, .ok b =>
    if h : a = b then isTrue (by rw [h]) else isFalse fun hc => h (Except.ok.inj hc)
  | .error a, .error b =>
    if h : a = b then isTrue (by rw [h]) else isFalse fun hc => h (Except.error.inj hc)
  | .ok _, .error _ => isFalse fun hc => Except.noConfusion hc
  | .error _, .ok _ => isFalse fun hc => Except.noConfusion hc

namespace Multiexp

/-- The digit of scalar `e` in the window at bit-offset `skip` of width `c`:
`exp.shr(skip); exp.as_ref()[0] % (1 << c)` — the shift is a logical
right-shift of the big integer, then the low 64-bit word is taken modulo
`2^c`. -/
def digit (e skip c : ℕ) : ℕ :=
  ((e >>> skip) % 2 ^ 64) % 2 ^ c

/-- The window offsets dispatched by the scheduler:
`skip = 0, c, 2c, …` while `skip < numBits`
(`while skip < Fr::NUM_BITS { …; skip += c }`). -/
def windowSkips (numBits c : ℕ) : List ℕ :=
  (List.range ((numBits + c - 1) / c)).map (· * c)

section Group

variable {G : Type} [AddCommGroup G]

/-- `for _ in 0..c { higher.double() }`: double a group element `c` times. -/
def doubleTimes (c : ℕ) (x : G) : G :=
  (fun y => y + y)^[c] x

/-- The summation-by-parts fold over the bucket vector
(`multiexp_inner`, lines 203–213): iterate buckets from the highest digit to
the lowest keeping `running_sum`; for each bucket first
`running_sum.add_assign(&exp)`, then `acc.add_assign(&running_sum)`.
The state is `(running_sum, acc, additions)` where `additions` counts the
`add_assign` invocations (two per bucket). -/
def sbpStep (st : G × G × ℕ) (b : G) : G × G × ℕ :=
  let rs := st.1 + b
  (rs, st.2.1 + rs, st.2.2 + 2)

/-- Summation by parts over the whole bucket list: the fold of `sbpStep` over
`buckets.reverse` (the source iterates `buckets.into_iter().rev()`), starting
from `running_sum = 0` and the window accumulator `acc0`.  Returns the final
accumulator together with the number of group additions performed. -/
def sumByParts (buckets : List G) (acc0 : G) : G × ℕ :=
  let st := buckets.reverse.foldl sbpStep ((0 : G), acc0, 0)
  (st.2.1, st.2.2)

/-- The weighted bucket total `Σ_{d=1}^{n} d • bucket_{d-1}` that the
summation-by-parts fold is meant to add to the accumulator. -/
def weightedSum (buckets : List G) : G :=
  ∑ i ∈ Finset.range buckets.length, (i + 1) • buckets.getD i 0

/-- One step of the bucket-routing loop of `multiexp_inner`
(lines 173–201), acting on the window state `(acc, buckets)` for the pair
`(exp, point)`:
* `exp == zero` → the source is advanced past the point (`bases.skip(1)`);
* `exp == one` → the point is added directly to `acc` when `handle_trivial`,
  otherwise skipped;
* otherwise the windowed digit is extracted and, when nonzero, the point is
  added (mixed addition) into `buckets[digit - 1]`. -/
def routePair (skip c : ℕ) (handleTrivial : Bool) (st : G × List G) (e : ℕ) (p : G) :
    G × List G :=
  if e = 0 then st
  else if e = 1 then
    if handleTrivial then (st.1 + p, st.2) else st
  else
    let d := digit e skip c
    if d ≠ 0 then (st.1, st.2.set (d - 1) (st.2.getD (d - 1) 0 + p))
    else st

/-- The bucket-routing loop of `multiexp_inner` over the `(exponent, density)`
stream: a density-`true` entry consumes the next point of the (lazily
filtered) base source — whether it is routed, added or skipped — and a
density-`false` entry consumes nothing.  Consuming from an exhausted source
is the source-exhaustion failure (spec §7: a missing-assignment error).
Returns the final window state and the unconsumed suffix of the source. -/
def windowLoop (skip c : ℕ) (handleTrivial : Bool) :
    List (ℕ × Bool) → List G → G × List G →
    Except SynthesisError ((G × List G) × List G)
  | [], src, st => .ok (st, src)
  | (e, dens) :: rest, src, st =>
    if dens then
      match src with
      | [] => .error .assignmentMissing
      | p :: src' => windowLoop skip c handleTrivial rest src'
          (routePair skip c handleTrivial st e p)
    else
      windowLoop skip c handleTrivial rest src st

/-- One window task of `multiexp_inner`: allocate `2^c - 1` zero buckets, run
the routing loop over the exponent/density stream against the base source,
then fold the buckets by summation by parts into the accumulator. -/
def windowTask (skip c : ℕ) (handleTrivial : Bool)
    (expsDens : List (ℕ × Bool)) (src : List G) : Except SynthesisError G :=
  match windowLoop skip c handleTrivial expsDens src
      (0, List.replicate (2 ^ c - 1) (0 : G)) with
  | .error e => .error e
  | .ok (st, _) => .ok (sumByParts st.2 st.1).1

/-- `join_chunks` (lines 1953–1973): zero chunks yield the identity; otherwise
iterate the per-window results from the highest `skip` down, doubling the
running value `c` times before adding each next chunk, and surface the first
error met along the way. -/
def joinStep (c : ℕ) (h ch : Except SynthesisError G) : Except SynthesisError G :=
  match h, ch with
  | .ok hv, .ok t => .ok (doubleTimes c hv + t)
  | .error e, _ => .error e
  | .ok _, .error e => .error e

/-- The body of `join_chunks`: fold `joinStep` over the descending chunk
list, starting from the highest chunk. -/
def joinChunks (chunks : List (Except SynthesisError G)) (c : ℕ) :
    Except SynthesisError G :=
  match chunks.reverse with
  | [] => .ok 0
  | last :: rest =>
    match last with
    | .error e => .error e
    | .ok higher => rest.foldl (joinStep c) (.ok higher)

/-- The `multiexp` entry point (lines 1701–1745) specialised to `FullDensity`
(every entry present) and the dense `(Arc<Vec<G>>, 0)` source: one window task
per `skip ∈ windowSkips`, with `handle_trivial` exactly on the `skip = 0`
window, joined by `join_chunks`.  The window width `c` is a parameter (the
caller computes it from the input length; for fewer than 32 exponents it is
`3`). -/
def multiexpModel (numBits c : ℕ) (exps : List ℕ) (pts : List G) :
    Except SynthesisError G :=
  joinChunks
    ((windowSkips numBits c).map fun skip =>
      windowTask skip c (skip == 0) (exps.map fun e => (e, true)) pts)
    c

/-- The `multiexp` entry point including its eager density-cardinality
contract check (lines 1718–1723): when the density map reports a query size
it is `assert!`ed equal to the number of exponents before any window task is
dispatched.  The failed assertion is a panic, modelled as `none`. -/
def multiexpChecked (numBits c : ℕ) (querySize : Option ℕ) (exps : List ℕ)
    (pts : List G) : Option (Except SynthesisError G) :=
  match querySize with
  | some q => if q = exps.length then some (multiexpModel numBits c exps pts) else none
  | none => some (multiexpModel numBits c exps pts)

/-- The per-region bucket pass of `dense_multiexp_inner` (lines 2018–2054)
over directly indexable bases: same routing as `multiexp_inner` but with no
source to advance, folded by the same summation by parts.  (The
per-thread index-range partition merged under the mutex is modelled as the
single full-range pass; partial per-thread sums are merged by `+`, which is
associative and commutative.) -/
def denseWindowVal (skip c : ℕ) (handleTrivial : Bool)
    (exps : List ℕ) (pts : List G) : G :=
  let st := (exps.zip pts).foldl
    (fun st ep => routePair skip c handleTrivial st ep.1 ep.2)
    ((0 : G), List.replicate (2 ^ c - 1) (0 : G))
  (sumByParts st.2 st.1).1

/-- The recursive region combiner of `dense_multiexp_inner`
(lines 2076–2092) over the ascending list of window values: the last region
is returned as-is, every lower region doubles the combined higher regions `c`
times and adds itself. -/
def denseJoin (c : ℕ) : List G → G
  | [] => 0
  | [v] => v
  | v :: rest => doubleTimes c (denseJoin c rest) + v

/-- `dense_multiexp` (lines 1979–1995): the eager length contract check —
mismatched base and exponent vector lengths return
`Err(SynthesisError::AssignmentMissing)` before `dense_multiexp_inner` is
entered — followed by the recursive window combination starting at
`skip = 0, handle_trivial = true`. -/
def denseMultiexp (numBits c : ℕ) (bases : List G) (exps : List ℕ) :
    Except SynthesisError G :=
  if exps.length ≠ bases.length then .error .assignmentMissing
  else
    .ok (denseJoin c
      ((windowSkips numBits c).map fun skip =>
        denseWindowVal skip c (skip == 0) exps bases))

end Group

section Field

variable {F : Type} [Field F] [DecidableEq F]
variable {G : Type} [AddCommGroup G]

/-- `Fq::inverse`: `none` for zero, the field inverse otherwise. -/
def finv (x : F) : Option F :=
  if x = 0 then none else some x⁻¹

/-- The running prefix products `[a, ab, abc, …]` pushed into `prod` by the
first pass of the batched inversion (`tmp.mul_assign(&x_diff); prod.push(tmp)`),
starting from the running value `t`. -/
def prefixProdsAux (t : F) : List F → List F
  | [] => []
  | x :: xs => (t * x) :: prefixProdsAux (t * x) xs

/-- Prefix products starting from `one`. -/
def prefixProds (xs : List F) : List F :=
  prefixProdsAux 1 xs

/-- The backward reconstruction walk of the batched inversion: the reversed
`x_diff` queue is zipped against
`prod.rev().skip(1).chain(Some(one))`; at each step with running value `tmp`,
the element is replaced by `tmp * p` and `tmp` becomes `tmp * x_diff`
(`newtmp = tmp * x_diff; *x_diff = tmp * p; tmp = newtmp`).  Produces the
replacement values in walk (reversed) order. -/
def walkInv : List F → List F → F → List F
  | x :: rxs, p :: rps, tmp => (tmp * p) :: walkInv rxs rps (tmp * x)
  | _, _, _ => []

/-- The batched (Montgomery) inversion shared by `reduce` (lines 921–991) and
`reduce_by_ref` (lines 1192–1220): one field inversion of the final running
product, then the backward walk recovering each individual inverse.  `none`
models the failed inversion of a zero product (`reduce` unwraps it — a panic;
`reduce_by_ref` converts it into `SynthesisError::DivisionByZero`). -/
def batchInv (xs : List F) : Option (List F) :=
  match finv ((prefixProds xs).getLastD 1) with
  | none => none
  | some t0 =>
    some ((walkInv xs.reverse ((prefixProds xs).reverse.drop 1 ++ [1]) t0).reverse)

/-- Adjacent pairs of a list (`drain_iter.next(); drain_iter.next()` in
`reduce`): the first drained element is the pair's first component. -/
def pairUp {α : Type} : List α → List (α × α)
  | x :: y :: t => (x, y) :: pairUp t
  | _ => []

/-- The slope denominator of one pair of affine points
`((x0, y0), (x1, y1))`: `x_diff = x1 - x0`. -/
def pairXDiff (pr : (F × F) × (F × F)) : F :=
  pr.2.1 - pr.1.1

/-- The affine-addition formula applied by `reduce` (lines 1006–1021) and
`reduce_by_ref` (lines 1280–1294) to one pair `((x0, y0), (x1, y1))` with the
recovered inverse slope denominator `inv`:
`lambda = (y1 - y0) * inv`, `x_new = lambda^2 - x0 - x1`,
`y_new = (x1 - x_new) * lambda - y0`. -/
def mergePoint (pr : (F × F) × (F × F)) (inv : F) : F × F :=
  let lam := (pr.2.2 - pr.1.2) * inv
  let xn := lam ^ 2 - pr.1.1 - pr.2.1
  let yn := (pr.2.1 - xn) * lam - pr.1.2
  (xn, yn)

/-- The per-bucket pairing pass of `reduce` (lines 936–971): buckets with at
most one point are untouched; otherwise the bucket is drained into adjacent
pairs, with the first point held back when the length is odd
(`b.drain(1..)` versus `b.drain(0..)`).  Returns the leftover contents and
the drained pairs. -/
def bucketSplit (b : List (F × F)) : List (F × F) × List ((F × F) × (F × F)) :=
  if b.length ≤ 1 then (b, [])
  else if b.length % 2 = 1 then ([b.headD (0, 0)], pairUp b.tail)
  else ([], pairUp b)

/-- Split a flat list into consecutive segments of the given lengths (used to
hand each bucket its own slice of the recovered inverses, as the per-bucket
scratch pads do). -/
def unflatten {α : Type} : List ℕ → List α → List (List α)
  | [], _ => []
  | n :: ns, l => l.take n :: unflatten ns (l.drop n)

/-- `reduce` (lines 912–1037): pair up every bucket, batch-invert the slope
denominators of all pairs across all buckets in one shot, and push each
merged point back into its bucket after the leftover.  The zero-product
inversion is `tmp.inverse().unwrap()` — a panic, modelled as `none`. -/
def reduceModel (buckets : List (List (F × F))) : Option (List (List (F × F))) :=
  match batchInv ((((buckets.map bucketSplit).map (·.2)).flatten).map pairXDiff) with
  | none => none
  | some invs =>
    some (List.zipWith (fun sp seg => sp.1 ++ seg) (buckets.map bucketSplit)
      (unflatten ((buckets.map bucketSplit).map (·.2.length))
        (List.zipWith mergePoint (((buckets.map bucketSplit).map (·.2)).flatten) invs)))

/-- Iterated invocation of `reduce`. -/
def iterateReduce (k : ℕ) (buckets : List (List (F × F))) :
    Option (List (List (F × F))) :=
  Nat.rec (some buckets) (fun _ r => r.bind reduceModel) k

/-- Total buffered point count across all buckets (`total_len`). -/
def totalLen (buckets : List (List (F × F))) : ℕ :=
  (buckets.map List.length).sum

/-- An accumulator entry of the pairwise tree reducer: the two affine points
of a pending pair, stored as `(p0, p1)` where the source's
`PointPairIndex::Reference([p1, p0])` holds the newer point first.  Arena
indices (`PointPairIndex::Index`) resolve to the stored points, so entries
are modelled by the points themselves (spec §4.4: both representations must
resolve to the same logical affine point). -/
abbrev RefEntry (F : Type) : Type := (F × F) × (F × F)

/-- The input-pass window state of `dense_affine_multiexp_inner_by_ref`
(lines 730–760): the per-bucket pending bitmap `chains_bitvec`, the
per-bucket last pending point `previous_chain_elem`, the flat pair
accumulator, and the window's projective accumulator. -/
structure ByRefState (F G : Type) where
  bitvec : List Bool
  prev : List (F × F)
  accumulator : List (ℕ × RefEntry F)
  acc : G
  deriving DecidableEq, Repr

/-- Route one live point into bucket `b` (lines 770–777 / 789–798): when the
pending bit is set, clear it and emit the accumulator entry
`Reference([new, pending])`; otherwise set the bit and hold the point as
pending. -/
def routeByRef (b : ℕ) (p : F × F) (st : ByRefState F G) : ByRefState F G :=
  if st.bitvec.getD b false then
    { st with
      bitvec := st.bitvec.set b false
      accumulator := st.accumulator ++ [(b, (st.prev.getD b (0, 0), p))] }
  else
    { st with bitvec := st.bitvec.set b true, prev := st.prev.set b p }

/-- One step of the input pass of `dense_affine_multiexp_inner_by_ref`
(lines 765–800): zero scalars contribute nothing, unit scalars are routed
into bucket 0 only when `handle_trivial`, every other scalar is routed by its
windowed digit (digit zero contributes nothing). -/
def byRefRoutePair (skip c : ℕ) (handleTrivial : Bool) (st : ByRefState F G)
    (e : ℕ) (p : F × F) : ByRefState F G :=
  if e = 0 then st
  else if e = 1 then
    if handleTrivial then routeByRef 0 p st else st
  else
    let d := digit e skip c
    if d ≠ 0 then routeByRef (d - 1) p st else st

/-- Regroup the flat pair accumulator by bucket index
(`accumulator.sort_by(|a, b| a.0.cmp(&b.0))` followed by the contiguous
per-bucket range bookkeeping of `reduce_by_ref`): the sort is stable, so
bucket `b`'s contiguous segment holds exactly the entries with bucket index
`b` in their original relative order. -/
def perBucket (accumulator : List (ℕ × RefEntry F)) (numBuckets : ℕ) :
    List (List (RefEntry F)) :=
  (List.range numBuckets).map fun b =>
    (accumulator.filter fun pr => pr.1 = b).map (·.2)

/-- The number of summations a round still has to perform
(lines 1090–1099): buckets holding 0 or 1 pairs contribute nothing, every
other bucket contributes its pair count. -/
def trueSums (buckets : List (List (RefEntry F))) : ℕ :=
  (buckets.map fun b => if b.length ≤ 1 then 0 else b.length).sum

/-- Total pair count of the round state. -/
def totalPairs (buckets : List (List (RefEntry F))) : ℕ :=
  (buckets.map List.length).sum

/-- The pairs a round merges from one bucket (lines 1155–1174): buckets with
0 or 1 pairs are untouched, and a bucket with an odd pair count defers its
first pair (`range = (shift+1)..`). -/
def toMerge (b : List (RefEntry F)) : List (RefEntry F) :=
  if b.length ≤ 1 then []
  else if b.length % 2 = 1 then b.tail
  else b

/-- Merge adjacent entries (lines 1257–1352): each entry's two points are
summed by the affine formula with that entry's recovered inverse, and two
consecutive summed points form the new entry
`Index([sum_idx_1, sum_idx_0])`. -/
def mergeAdj : List (RefEntry F) → List F → List (RefEntry F)
  | e0 :: e1 :: es, i0 :: i1 :: is => (mergePoint e0 i0, mergePoint e1 i1) :: mergeAdj es is
  | _, _ => []

/-- One bucket's contents after a round: untouched when holding 0 or 1 pairs,
otherwise the deferred first pair (odd counts only) followed by the merged
pairs, written back contiguously from the bucket's base offset. -/
def roundBucket (b : List (RefEntry F)) (invs : List F) : List (RefEntry F) :=
  if b.length ≤ 1 then b
  else if b.length % 2 = 1 then b.headD ((0, 0), (0, 0)) :: mergeAdj b.tail invs
  else mergeAdj b invs

variable (φ : F × F → G)

/-- The final direct summation of `reduce_by_ref` (lines 1103–1145): collect
the live range of every nonempty bucket, then walk the ranges from the
highest bucket down keeping a running sum — each range's points are
mixed-added into a projective subtotal, the subtotal feeds the running sum,
and the running sum is added into the window's projective accumulator. -/
def finalFold (buckets : List (List (RefEntry F))) (acc : G) : G :=
  let ranges := buckets.filter (· ≠ [])
  (ranges.reverse.foldl
    (fun st r =>
      let subsum := (r.map fun e => φ e.2 + φ e.1).sum
      let rs := st.1 + subsum
      (rs, st.2 + rs))
    ((0 : G), acc)).2

/-- The round loop of `reduce_by_ref` (lines 1087–1366), on the per-bucket
view of the sorted accumulator.  While the summations still to perform reach
`threshold`, each round batch-inverts the slope denominators of all pairs to
merge (`tmp.inverse().ok_or(SynthesisError::DivisionByZero)?`) and halves
every bucket; below the threshold the final direct summation runs and the
accumulator is cleared (`accumulator.truncate(0)`).  `fuel` bounds the number
of rounds; `none` is fuel exhaustion (the termination theorem shows
`totalPairs + 1` rounds always suffice). -/
def roundsLoop (threshold : ℕ) :
    ℕ → List (List (RefEntry F)) → G → Option (Except SynthesisError (G × List (ℕ × RefEntry F)))
  | 0, _, _ => none
  | fuel + 1, buckets, acc =>
    if trueSums buckets < threshold then
      some (.ok (finalFold φ buckets acc, []))
    else
      match batchInv (((buckets.map toMerge).flatten).map pairXDiff) with
      | none => some (.error .divisionByZero)
      | some invs =>
        roundsLoop threshold fuel
          (List.zipWith roundBucket buckets
            (unflatten ((buckets.map toMerge).map List.length) invs))
          acc

/-- `reduce_by_ref` (lines 1039–1369): sort the accumulator by bucket, build
the initial schedule, and run the round loop. -/
def reduceByRef (accumulator : List (ℕ × RefEntry F)) (numBuckets threshold : ℕ)
    (acc : G) : Option (Except SynthesisError (G × List (ℕ × RefEntry F))) :=
  let buckets := perBucket accumulator numBuckets
  roundsLoop φ threshold (totalPairs buckets + 1) buckets acc

/-- The input pass of `dense_affine_multiexp_inner_by_ref` (lines 765–822):
route every pair, and run `reduce_by_ref` whenever the flat accumulator
reaches `reduction_size`, threading its cleared accumulator and updated
projective accumulator back into the state. -/
def byRefLoop (skip c numBuckets reductionSize threshold : ℕ) (handleTrivial : Bool) :
    List (ℕ × (F × F)) → ByRefState F G → Except SynthesisError (ByRefState F G)
  | [], st => .ok st
  | (e, p) :: rest, st =>
    let st' := byRefRoutePair skip c handleTrivial st e p
    if st'.accumulator.length ≥ reductionSize then
      match reduceByRef φ st'.accumulator numBuckets threshold st'.acc with
      | none => .error .divisionByZero
      | some (.error err) => .error err
      | some (.ok (acc', accumulator')) =>
        byRefLoop skip c numBuckets reductionSize threshold handleTrivial rest
          { st' with accumulator := accumulator', acc := acc' }
    else
      byRefLoop skip c numBuckets reductionSize threshold handleTrivial rest st'

/-- One window task of `dense_affine_multiexp_inner_by_ref` (lines 714–883):
`reduction_size = 2^16`, `reduction_threshold = 2^6`, `2^c - 1` buckets; run
the input pass, then one final `reduce_by_ref`, and return the window's
projective accumulator.  Any pending unpaired points left in
`previous_chain_elem` at this moment are part of the final state but take no
further part in the computation. -/
def byRefWindow (skip c : ℕ) (handleTrivial : Bool)
    (exps : List ℕ) (pts : List (F × F)) : Except SynthesisError G :=
  let numBuckets := 2 ^ c - 1
  let st0 : ByRefState F G :=
    { bitvec := List.replicate numBuckets false
      prev := List.replicate numBuckets (0, 0)
      accumulator := []
      acc := 0 }
  match byRefLoop φ skip c numBuckets (2 ^ 16) (2 ^ 6) handleTrivial (exps.zip pts) st0 with
  | .error e => .error e
  | .ok st =>
    match reduceByRef φ st.accumulator numBuckets (2 ^ 6) st.acc with
    | none => .error .divisionByZero
    | some (.error err) => .error err
    | some (.ok (acc', _)) => .ok acc'

/-- The final input-pass state of one window of
`dense_affine_multiexp_inner_by_ref`, before the closing `reduce_by_ref`
(used to observe the pending bitmap and pending point directly). -/
def byRefInputState (skip c : ℕ) (handleTrivial : Bool)
    (exps : List ℕ) (pts : List (F × F)) :
    Except SynthesisError (ByRefState F G) :=
  let numBuckets := 2 ^ c - 1
  byRefLoop φ skip c numBuckets (2 ^ 16) (2 ^ 6) handleTrivial (exps.zip pts)
    { bitvec := List.replicate numBuckets false
      prev := List.replicate numBuckets (0, 0)
      accumulator := []
      acc := 0 }

/-- `dense_affine_multiexp_by_ref` (lines 1875–1921): one window task per
`skip`, `handle_trivial` exactly at `skip = 0`, joined by `join_chunks`.  The
window width `c` is a parameter (for fewer than 32 exponents the source picks
`c = 3`). -/
def byRefMultiexp (numBits c : ℕ) (exps : List ℕ) (pts : List (F × F)) :
    Except SynthesisError G :=
  joinChunks
    ((windowSkips numBits c).map fun skip =>
      byRefWindow φ skip c (skip == 0) exps pts)
    c

end Field

section SpecSide

variable {G : Type} [AddCommGroup G]

/-- The windowed digit as the spec states it: `(scalar >> skip) mod 2^c`
(the source additionally reads the value through the low 64-bit word; the two
agree whenever `c ≤ 64`). -/
def specDigit (e skip c : ℕ) : ℕ :=
  (e >>> skip) % 2 ^ c

/-- The direct per-element evaluation `Σ s_i • P_i` of the MSM. -/
def naiveMSM (exps : List ℕ) (pts : List G) : G :=
  ((exps.zip pts).map fun ep => ep.1 • ep.2).sum

/-- The sum of the points whose whole scalar equals `1` (the
`handle_trivial` direct-add path). -/
def onesSum (pairs : List (ℕ × G)) : G :=
  ((pairs.filter fun ep => ep.1 == 1).map (·.2)).sum

/-- The sum of the points routed to digit `d` of the window at `skip`:
points whose scalar is neither `0` nor `1` and whose windowed digit equals
`d`. -/
def bucketContrib (skip c d : ℕ) (pairs : List (ℕ × G)) : G :=
  ((pairs.filter fun ep =>
      decide (ep.1 ≠ 0) && decide (ep.1 ≠ 1) && (specDigit ep.1 skip c == d)).map
    (·.2)).sum

/-- What one `(scalar, point)` pair contributes to the value of the window at
`skip`: nothing for scalar `0`, the point itself for scalar `1` on the
`handle_trivial` window (nothing elsewhere), and `digit • point`
otherwise. -/
def windowContrib (skip c : ℕ) (handleTrivial : Bool) (e : ℕ) (p : G) : G :=
  if e = 0 then 0
  else if e = 1 then (if handleTrivial then p else 0)
  else digit e skip c • p

/-- Weight of the head of a descending bucket list inside the
summation-by-parts fold: the head is added once per remaining iteration. -/
def revWeight : List G → G
  | [] => 0
  | b :: t => (t.length + 1) • b + revWeight t

/-- Weight of a descending chunk list inside the `join_chunks` fold: a chunk
followed by `m` lower chunks is doubled `m * c` times in total. -/
def hornerWeight (c : ℕ) : List G → G
  | [] => 0
  | t :: ts => 2 ^ (ts.length * c) • t + hornerWeight c ts

/-- `(num_pairs / 2) + (num_pairs % 2)` — the per-bucket count map of one
reduction round (`reduce_by_ref`, line 1149), which is also how `reduce`
maps every bucket's buffered point count. -/
def ceilHalf (n : ℕ) : ℕ :=
  n / 2 + n % 2

/-- The next-round schedule computed from this round's schedule
(lines 1148–1150). -/
def scheduleStep (s : List ℕ) : List ℕ :=
  s.map ceilHalf

end SpecSide

end Multiexp

instance : Fact (Nat.Prime 5) := ⟨by norm_num⟩

instance : Fact (Nat.Prime 7) := ⟨by norm_num⟩

namespace Multiexp

variable {G : Type} [AddCommGroup G]

theorem foldl_sbpStep (l : List G) (rs a : G) (n : ℕ) :
    l.foldl sbpStep (rs, a, n) =
      (rs + l.sum, a + l.length • rs + revWeight l, n + 2 * l.length) := by
  induction l generalizing rs a n with
  | nil => simp [revWeight]
  | cons b t ih =>
    simp only [List.foldl_cons, sbpStep, ih, List.sum_cons, List.length_cons, revWeight]
    refine Prod.ext ?_ (Prod.ext ?_ ?_)
    · simp only
      abel
    · simp only [succ_nsmul, smul_add]
      abel
    · simp only
      omega

theorem sum_getD (l : List G) : ∑ i ∈ Finset.range l.length, l.getD i 0 = l.sum := by
  induction l with
  | nil => simp
  | cons x t ih =>
    rw [List.length_cons, Finset.sum_range_succ']
    simp only [List.getD_cons_succ, List.getD_cons_zero, ih, List.sum_cons]
    abel

theorem weightedSum_cons (x : G) (l : List G) :
    weightedSum (x :: l) = x + l.sum + weightedSum l := by
  unfold weightedSum
  rw [List.length_cons, Finset.sum_range_succ']
  simp only [List.getD_cons_succ, List.getD_cons_zero, one_smul]
  have h : ∀ i : ℕ, (i + 1 + 1) • l.getD i 0 = l.getD i 0 + (i + 1) • l.getD i 0 := by
    intro i
    rw [add_comm (i + 1) 1, add_nsmul, one_smul]
  rw [Finset.sum_congr rfl fun i _ => h i, Finset.sum_add_distrib, sum_getD]
  abel

theorem revWeight_append_single (u : List G) (x : G) :
    revWeight (u ++ [x]) = revWeight u + u.sum + x := by
  induction u with
  | nil => simp [revWeight]
  | cons b t ih =>
    simp only [List.cons_append, revWeight, List.sum_cons, List.append_eq]
    rw [ih]
    have hl : (t ++ [x]).length = t.length + 1 := by simp
    rw [hl, succ_nsmul]
    abel

theorem revWeight_reverse (l : List G) : revWeight l.reverse = weightedSum l := by
  induction l with
  | nil => simp [revWeight, weightedSum]
  | cons x t ih =>
    rw [List.reverse_cons, revWeight_append_single, ih, List.sum_reverse, weightedSum_cons]
    abel

/-- The summation-by-parts fold adds the weighted bucket total to the
accumulator and performs two `add_assign` per bucket. -/
theorem sumByParts_spec (buckets : List G) (acc0 : G) :
    sumByParts buckets acc0 = (acc0 + weightedSum buckets, 2 * buckets.length) := by
  unfold sumByParts
  rw [foldl_sbpStep]
  simp [revWeight_reverse, smul_zero]

/-- C4 (amended): the summation-by-parts fold — iterating the buckets from
highest digit to lowest while maintaining a running sum, adding each bucket
into `running_sum` and then `running_sum` into the accumulator — adds exactly
`Σ_{d=1}^{2^c-1} d • bucket_d` to the window accumulator, and does so using
`2^(c+1) - 2` group additions (two `add_assign` per bucket, over `2^c - 1`
buckets), not `2^c - 2` of them. -/
theorem sumByParts_weighted_total (c : ℕ) (buckets : List G) (acc0 : G)
    (h : buckets.length = 2 ^ c - 1) :
    (sumByParts buckets acc0).1 = acc0 + weightedSum buckets ∧
      (sumByParts buckets acc0).2 = 2 ^ (c + 1) - 2 := by
  rw [sumByParts_spec]
  refine ⟨rfl, ?_⟩
  have h1 : 1 ≤ 2 ^ c := Nat.one_le_two_pow
  simp only [h, pow_succ]
  omega

/-- C4 counterexample: at `c = 2` the fold performs `6 = 2^3 - 2` additions,
not `2^2 - 2 = 2` of them. -/
theorem sumByParts_additions_count_cex :
    (sumByParts (List.replicate (2 ^ 2 - 1) (1 : ℤ)) 0).2 ≠ 2 ^ 2 - 2 := by
  decide

theorem sumByParts_weighted_total_witness :
    (List.replicate 3 (1 : ℤ)).length = 2 ^ 2 - 1 ∧
      ((sumByParts (List.replicate 3 (1 : ℤ)) 0).1 =
          0 + weightedSum (List.replicate 3 (1 : ℤ)) ∧
        (sumByParts (List.replicate 3 (1 : ℤ)) 0).2 = 2 ^ (2 + 1) - 2) :=
  ⟨by decide, sumByParts_weighted_total 2 (List.replicate 3 (1 : ℤ)) 0 (by decide)⟩

theorem doubleTimes_nsmul (c : ℕ) (x : G) : doubleTimes c x = 2 ^ c • x := by
  induction c generalizing x with
  | zero => simp [doubleTimes]
  | succ c ih =>
    rw [doubleTimes, Function.iterate_succ_apply, ← doubleTimes, ih, pow_succ]
    rw [← two_nsmul, smul_smul]

theorem foldl_joinStep_ok (c : ℕ) (l : List G) (h0 : G) :
    (l.map Except.ok).foldl (joinStep c) (.ok h0) =
      .ok (l.foldl (fun h t => doubleTimes c h + t) h0) := by
  induction l generalizing h0 with
  | nil => simp
  | cons t ts ih => simp [joinStep, ih]

theorem foldl_horner (c : ℕ) (l : List G) (h0 : G) :
    l.foldl (fun h t => doubleTimes c h + t) h0 =
      2 ^ (l.length * c) • h0 + hornerWeight c l := by
  induction l generalizing h0 with
  | nil => simp [hornerWeight]
  | cons t ts ih =>
    rw [List.foldl_cons, ih, doubleTimes_nsmul, hornerWeight, List.length_cons,
      smul_add, smul_smul, ← pow_add]
    have harith : ts.length * c + c = (ts.length + 1) * c := by ring
    rw [harith]
    abel

theorem hornerWeight_eq (c : ℕ) (l : List G) :
    hornerWeight c l = ∑ i ∈ Finset.range l.length, 2 ^ (i * c) • l.reverse.getD i 0 := by
  induction l with
  | nil => simp [hornerWeight]
  | cons t ts ih =>
    rw [hornerWeight, List.length_cons, Finset.sum_range_succ, List.reverse_cons, ih]
    have hlen : ts.length = ts.reverse.length := (List.length_reverse ts).symm
    have hg1 : ∀ i ∈ Finset.range ts.length,
        2 ^ (i * c) • (ts.reverse ++ [t]).getD i 0 = 2 ^ (i * c) • ts.reverse.getD i 0 := by
      intro i hi
      rw [Finset.mem_range] at hi
      rw [List.getD_append _ _ _ _ (by omega)]
    have hg2 : (ts.reverse ++ [t]).getD ts.length 0 = t := by
      rw [List.getD_append_right ts.reverse [t] 0 ts.length (by simp)]
      simp
    rw [Finset.sum_congr rfl hg1, hg2]
    abel

/-- `join_chunks` on successful chunks `r_0 … r_{k-1}` (ascending `skip`)
returns `Σ_i 2^(i·c) • r_i`. -/
theorem joinChunks_ok (rs : List G) (c : ℕ) :
    joinChunks (rs.map .ok) c =
      .ok (∑ i ∈ Finset.range rs.length, 2 ^ (i * c) • rs.getD i 0) := by
  rcases h : rs.reverse with _ | ⟨x, l⟩
  · have hnil : rs = [] := List.reverse_eq_nil_iff.mp h
    subst hnil
    simp [joinChunks]
  · have hrs : rs = l.reverse ++ [x] := by
      have := congrArg List.reverse h
      simpa using this
    have hmap : (rs.map (Except.ok (ε := SynthesisError))).reverse =
        Except.ok x :: l.map Except.ok := by
      rw [← List.map_reverse, h, List.map_cons]
    rw [joinChunks, hmap]
    show (l.map Except.ok).foldl (joinStep c) (.ok x) = _
    rw [foldl_joinStep_ok, foldl_horner, hornerWeight_eq]
    subst hrs
    congr 1
    have hlen2 : (l.reverse ++ [x]).length = l.length + 1 := by simp
    rw [hlen2, Finset.sum_range_succ]
    have hg1 : ∀ i ∈ Finset.range l.length,
        2 ^ (i * c) • (l.reverse ++ [x]).getD i 0 = 2 ^ (i * c) • l.reverse.getD i 0 := by
      intro i hi
      rw [Finset.mem_range] at hi
      rw [List.getD_append _ _ _ _ (by simpa using hi)]
    have hg2 : (l.reverse ++ [x]).getD l.length 0 = x := by
      rw [List.getD_append_right l.reverse [x] 0 l.length (by simp)]
      simp
    rw [Finset.sum_congr rfl hg1, hg2]
    abel

theorem weightedSum_replicate_zero (n : ℕ) : weightedSum (List.replicate n (0 : G)) = 0 := by
  unfold weightedSum
  refine Finset.sum_eq_zero fun i _ => ?_
  have h : (List.replicate n (0 : G)).getD i 0 = 0 := by
    simp [List.getD]
  rw [h, smul_zero]

theorem windowTask_nil (skip c : ℕ) (triv : Bool) :
    windowTask (G := G) skip c triv [] [] = .ok 0 := by
  unfold windowTask windowLoop
  show Except.ok (sumByParts (List.replicate (2 ^ c - 1) (0 : G)) 0).1 = .ok 0
  rw [sumByParts_spec, weightedSum_replicate_zero]
  simp

/-- C5: `join_chunks` on per-window partial sums `r_0 … r_{k-1}` ordered by
ascending `skip` returns `Σ_i 2^(i·c) • r_i` (initialising with the highest
window and doubling `c` times before each addition); zero chunks yield the
group identity, and the public MSM applied to empty input vectors yields the
group identity. -/
theorem joinChunks_horner_and_empty (numBits c : ℕ) (rs : List G) :
    joinChunks (rs.map .ok) c =
        .ok (∑ i ∈ Finset.range rs.length, 2 ^ (i * c) • rs.getD i 0) ∧
      joinChunks ([] : List (Except SynthesisError G)) c = .ok 0 ∧
      multiexpModel numBits c ([] : List ℕ) ([] : List G) = .ok 0 := by
  refine ⟨joinChunks_ok rs c, by simp [joinChunks], ?_⟩
  unfold multiexpModel
  have hmap : ((windowSkips numBits c).map fun skip =>
      windowTask (G := G) skip c (skip == 0) (([] : List ℕ).map fun e => (e, true)) []) =
      ((windowSkips numBits c).map fun _ => (0 : G)).map Except.ok := by
    rw [List.map_map]
    refine List.map_congr_left fun skip _ => ?_
    simpa using windowTask_nil (G := G) skip c (skip == 0)
  rw [hmap, joinChunks_ok]
  congr 1
  refine Finset.sum_eq_zero fun i _ => ?_
  have h0 : ((windowSkips numBits c).map fun _ => (0 : G)).getD i 0 = 0 := by
    rcases Nat.lt_or_ge i ((windowSkips numBits c).map fun _ => (0 : G)).length with h | h
    · rw [List.getD_eq_getElem _ _ h]
      simp
    · rw [List.getD_eq_default _ _ h]
  rw [h0, smul_zero]

/-- C7: a caller-supplied consistency violation — a density mask whose
declared cardinality differs from the exponent count (`multiexp`,
`assert!(query_size == exponents.len())`), or base and scalar vectors of
mismatched length (`dense_multiexp`) — is detected before any window task is
dispatched: the whole call fails (panic for the assertion, an immediate
`AssignmentMissing` error for `dense_multiexp`) irrespective of the vector
contents, with no recovery or retry. -/
theorem consistency_checks_eager :
    (∀ (numBits c q : ℕ) (exps : List ℕ) (pts : List G), q ≠ exps.length →
        multiexpChecked numBits c (some q) exps pts = none) ∧
      ∀ (numBits c : ℕ) (bases : List G) (exps : List ℕ), exps.length ≠ bases.length →
        denseMultiexp numBits c bases exps = .error .assignmentMissing := by
  constructor
  · intro numBits c q exps pts hq
    simp [multiexpChecked, hq]
  · intro numBits c bases exps hl
    simp [denseMultiexp, hl]

theorem consistency_checks_eager_witness :
    ((2 : ℕ) ≠ ([0] : List ℕ).length ∧
        multiexpChecked (G := ℤ) 8 3 (some 2) [0] [1] = none) ∧
      ([] : List ℕ).length ≠ ([1] : List ℤ).length ∧
        denseMultiexp 8 3 [(1 : ℤ)] [] = .error .assignmentMissing :=
  ⟨⟨by decide, consistency_checks_eager.1 8 3 2 [0] [1] (by decide)⟩,
    by decide, consistency_checks_eager.2 8 3 [1] [] (by decide)⟩

end Multiexp

namespace Multiexp

variable {F : Type} [Field F] [DecidableEq F]

theorem prefixProdsAux_getLastD (t : F) (xs : List F) :
    (prefixProdsAux t xs).getLastD t = t * xs.prod := by
  induction xs generalizing t with
  | nil => simp [prefixProdsAux]
  | cons x l ih =>
    rw [prefixProdsAux, List.getLastD_cons, ih, List.prod_cons, mul_assoc]

theorem prefixProdsAux_concat (t : F) (u : List F) (x : F) :
    prefixProdsAux t (u ++ [x]) = prefixProdsAux t u ++ [t * u.prod * x] := by
  induction u generalizing t with
  | nil => simp [prefixProdsAux]
  | cons y u ih =>
    rw [List.cons_append, prefixProdsAux, ih, prefixProdsAux, List.cons_append,
      List.prod_cons]
    simp only [mul_assoc]

theorem walkInv_nil (rps : List F) (t : F) : walkInv ([] : List F) rps t = [] := by
  cases rps <;> rfl

theorem walkInv_cons (x : F) (rxs : List F) (p : F) (rps : List F) (tmp : F) :
    walkInv (x :: rxs) (p :: rps) tmp = (tmp * p) :: walkInv rxs rps (tmp * x) :=
  rfl

theorem walkInv_aux (zs : List F) (T : F) (h : ∀ z ∈ zs, z ≠ 0) (hT : T ≠ 0) :
    walkInv zs.reverse ((prefixProdsAux T zs).reverse.drop 1 ++ [T]) (T * zs.prod)⁻¹ =
      (zs.map fun z => z⁻¹).reverse := by
  induction zs using List.reverseRecOn with
  | nil => simp [walkInv]
  | append_singleton ws w ih =>
    have hw : w ≠ 0 := h w (by simp)
    have hws : ∀ z ∈ ws, z ≠ 0 := fun z hz => h z (by simp [hz])
    have hwsprod : ws.prod ≠ 0 := List.prod_ne_zero fun h0 => hws 0 h0 rfl
    have hzsprod : (ws ++ [w]).prod = ws.prod * w := by simp
    rw [prefixProdsAux_concat]
    have hrev : (prefixProdsAux T ws ++ [T * ws.prod * w]).reverse.drop 1 ++ [T] =
        (prefixProdsAux T ws).reverse ++ [T] := by
      simp
    rw [hrev]
    rcases List.eq_nil_or_concat (prefixProdsAux T ws) with hnil | ⟨L, a, hL⟩
    · have hwsnil : ws = [] := by
        rcases ws with _ | ⟨y, ws'⟩
        · rfl
        · rw [prefixProdsAux] at hnil
          exact absurd hnil (List.cons_ne_nil _ _)
      subst hwsnil
      rw [hnil]
      simp only [List.nil_append, List.reverse_nil, List.drop_nil, List.reverse_cons,
        List.prod_nil, List.prod_cons, List.map_cons, List.map_nil,
        List.reverse_singleton, mul_one, one_mul]
      rw [walkInv_cons, walkInv_nil]
      have hval : (T * w)⁻¹ * T = w⁻¹ := by field_simp
      rw [hval]
    · have ha : a = T * ws.prod := by
        have hlast := prefixProdsAux_getLastD T ws
        rw [hL, List.concat_eq_append, List.getLastD_concat] at hlast
        exact hlast
      rw [hL]
      have hshape : (L.concat a).reverse ++ [T] = a :: (L.reverse ++ [T]) := by
        simp [List.reverse_concat]
      rw [hshape]
      have hwrev : (ws ++ [w]).reverse = w :: ws.reverse := by simp
      rw [hwrev, walkInv_cons]
      have hout : (T * (ws ++ [w]).prod)⁻¹ * a = w⁻¹ := by
        rw [ha, hzsprod]
        field_simp
        ring
      have htmp : (T * (ws ++ [w]).prod)⁻¹ * w = (T * ws.prod)⁻¹ := by
        rw [hzsprod]
        field_simp
        ring
      have hdrop : L.reverse ++ [T] = (prefixProdsAux T ws).reverse.drop 1 ++ [T] := by
        rw [hL, List.concat_eq_append, List.reverse_concat]
        simp
      rw [hout, htmp, hdrop, ih hws]
      simp

/-- C9: the batched (Montgomery) inversion used by both reduction primitives
— one field inversion of the final running prefix product, then a backward
walk reconstructing each individual inverse — returns, for every nonzero
input element, exactly the inverse obtained by inverting that element
individually. -/
theorem batchInv_eq_individual (xs : List F) (h : ∀ x ∈ xs, x ≠ 0) :
    batchInv xs = some (xs.map fun x => x⁻¹) := by
  have hprod : xs.prod ≠ 0 := List.prod_ne_zero fun h0 => h 0 h0 rfl
  have hlast : (prefixProds xs).getLastD 1 = xs.prod := by
    simpa using prefixProdsAux_getLastD 1 xs
  have hfinv : finv ((prefixProds xs).getLastD 1) = some xs.prod⁻¹ := by
    rw [hlast, finv, if_neg hprod]
  unfold batchInv
  rw [hfinv]
  show some ((walkInv xs.reverse ((prefixProds xs).reverse.drop 1 ++ [1])
      xs.prod⁻¹).reverse) = _
  have hw := walkInv_aux xs 1 h one_ne_zero
  rw [one_mul] at hw
  unfold prefixProds
  rw [hw]
  simp

theorem batchInv_eq_individual_witness :
    (∀ x ∈ ([2, 3] : List (ZMod 7)), x ≠ 0) ∧
      batchInv ([2, 3] : List (ZMod 7)) = some ([2, 3].map fun x => x⁻¹) :=
  ⟨by decide, batchInv_eq_individual [2, 3] (by decide)⟩

end Multiexp

namespace Multiexp

variable {G : Type} [AddCommGroup G]

theorem digit_eq_specDigit (e skip c : ℕ) (hc : c ≤ 64) :
    digit e skip c = specDigit e skip c :=
  Nat.mod_mod_of_dvd _ (pow_dvd_pow 2 hc)

theorem specDigit_lt (e skip c : ℕ) : specDigit e skip c < 2 ^ c :=
  Nat.mod_lt _ (Nat.pos_pow_of_pos c (by omega))

theorem getD_set_general (l : List G) (i j : ℕ) (x : G) :
    (l.set i x).getD j 0 = if i = j ∧ i < l.length then x else l.getD j 0 := by
  rw [List.getD_eq_getElem?_getD, List.getD_eq_getElem?_getD, List.getElem?_set]
  by_cases hij : i = j
  · subst hij
    by_cases hil : i < l.length
    · simp [hil]
    · have hnone : l[i]? = none := by
        rw [List.getElem?_eq_none_iff]
        omega
      simp [hil, hnone]
  · simp [hij]

theorem map_getD_range (bs : List G) :
    (List.range bs.length).map (fun j => bs.getD j 0) = bs := by
  induction bs with
  | nil => simp
  | cons x t ih =>
    rw [List.length_cons, List.range_succ_eq_map, List.map_cons, List.map_map]
    have hfun : ((fun j => (x :: t).getD j 0) ∘ Nat.succ) = fun j => t.getD j 0 := by
      funext j
      simp
    rw [hfun, ih]
    simp

theorem onesSum_cons (e : ℕ) (p : G) (rest : List (ℕ × G)) :
    onesSum ((e, p) :: rest) = (if e = 1 then p else 0) + onesSum rest := by
  unfold onesSum
  rw [List.filter_cons]
  by_cases h : e = 1 <;> simp [h]

theorem bucketContrib_cons (skip c d e : ℕ) (p : G) (rest : List (ℕ × G)) :
    bucketContrib skip c d ((e, p) :: rest) =
      (if e ≠ 0 ∧ e ≠ 1 ∧ specDigit e skip c = d then p else 0) +
        bucketContrib skip c d rest := by
  unfold bucketContrib
  rw [List.filter_cons]
  by_cases h0 : e = 0 <;> by_cases h1 : e = 1 <;>
    by_cases hd : specDigit e skip c = d <;> simp [h0, h1, hd]

theorem foldl_routePair_spec (skip c : ℕ) (triv : Bool) (hc : c ≤ 64)
    (pairs : List (ℕ × G)) :
    ∀ (a : G) (bs : List G), bs.length = 2 ^ c - 1 →
      pairs.foldl (fun s ep => routePair skip c triv s ep.1 ep.2) (a, bs) =
        (a + (if triv then onesSum pairs else 0),
          (List.range bs.length).map fun j =>
            bs.getD j 0 + bucketContrib skip c (j + 1) pairs) := by
  induction pairs with
  | nil =>
    intro a bs _
    have hmap : ((List.range bs.length).map fun j =>
        bs.getD j 0 + bucketContrib skip c (j + 1) []) =
        (List.range bs.length).map fun j => bs.getD j 0 := by
      refine List.map_congr_left fun j _ => ?_
      simp [bucketContrib]
    rw [List.foldl_nil, hmap, map_getD_range]
    simp [onesSum]
  | cons ep rest ih =>
    intro a bs hbs
    obtain ⟨e, p⟩ := ep
    rw [List.foldl_cons]
    by_cases he0 : e = 0
    · subst he0
      have hroute : routePair skip c triv (a, bs) 0 p = (a, bs) := by
        simp [routePair]
      rw [hroute, ih a bs hbs]
      refine Prod.ext ?_ ?_
      · simp [onesSum_cons]
      · refine List.map_congr_left fun j _ => ?_
        simp [bucketContrib_cons]
    · by_cases he1 : e = 1
      · subst he1
        by_cases htriv : triv = true
        · subst htriv
          have hroute : routePair skip c true (a, bs) 1 p = (a + p, bs) := by
            simp [routePair]
          rw [hroute, ih (a + p) bs hbs]
          refine Prod.ext ?_ ?_
          · simp only [onesSum_cons, if_pos rfl, if_true]
            abel
          · refine List.map_congr_left fun j _ => ?_
            simp [bucketContrib_cons]
        · have hfalse : triv = false := by
            simpa using htriv
          subst hfalse
          have hroute : routePair skip c false (a, bs) 1 p = (a, bs) := by
            simp [routePair]
          rw [hroute, ih a bs hbs]
          refine Prod.ext ?_ ?_
          · simp
          · refine List.map_congr_left fun j _ => ?_
            simp [bucketContrib_cons]
      · have hd : digit e skip c = specDigit e skip c := digit_eq_specDigit e skip c hc
        by_cases hdz : specDigit e skip c = 0
        · have hroute : routePair skip c triv (a, bs) e p = (a, bs) := by
            simp [routePair, he0, he1, hd, hdz]
          rw [hroute, ih a bs hbs]
          refine Prod.ext ?_ ?_
          · simp [onesSum_cons, he1]
          · refine List.map_congr_left fun j _ => ?_
            rw [bucketContrib_cons]
            have : ¬(e ≠ 0 ∧ e ≠ 1 ∧ specDigit e skip c = j + 1) := by
              rintro ⟨-, -, hj⟩
              omega
            simp [this]
        · set d := specDigit e skip c with hdef
          have hdlt : d < 2 ^ c := specDigit_lt e skip c
          have hbound : d - 1 < bs.length := by omega
          have hroute : routePair skip c triv (a, bs) e p =
              (a, bs.set (d - 1) (bs.getD (d - 1) 0 + p)) := by
            simp [routePair, he0, he1, hd, hdz]
          rw [hroute]
          have hlen : (bs.set (d - 1) (bs.getD (d - 1) 0 + p)).length = 2 ^ c - 1 := by
            rw [List.length_set]
            exact hbs
          rw [ih a _ hlen]
          refine Prod.ext ?_ ?_
          · simp [onesSum_cons, he1]
          · rw [List.length_set]
            refine List.map_congr_left fun j hj => ?_
            rw [List.mem_range] at hj
            rw [getD_set_general]
            rw [bucketContrib_cons]
            by_cases hjd : d - 1 = j
            · have hind : e ≠ 0 ∧ e ≠ 1 ∧ specDigit e skip c = j + 1 :=
                ⟨he0, he1, by omega⟩
              rw [if_pos ⟨hjd, by omega⟩, if_pos hind, hjd]
              abel
            · have hind : ¬(e ≠ 0 ∧ e ≠ 1 ∧ specDigit e skip c = j + 1) := by
                rintro ⟨-, -, hj1⟩
                omega
              rw [if_neg (by tauto), if_neg hind]
              abel

theorem windowLoop_full (skip c : ℕ) (triv : Bool) (exps : List ℕ) :
    ∀ (pts : List G) (st : G × List G), exps.length ≤ pts.length →
      windowLoop skip c triv (exps.map fun e => (e, true)) pts st =
        .ok ((exps.zip pts).foldl (fun s ep => routePair skip c triv s ep.1 ep.2) st,
          pts.drop exps.length) := by
  induction exps with
  | nil =>
    intro pts st _
    simp [windowLoop]
  | cons e rest ih =>
    intro pts st h
    cases pts with
    | nil => simp at h
    | cons p pts' =>
      rw [List.map_cons]
      have hlen : rest.length ≤ pts'.length := by
        simpa using h
      simp only [windowLoop, if_true]
      rw [ih pts' (routePair skip c triv st e p) hlen]
      simp

/-- C6: per naive window, a `(scalar, point)` pair is routed as the spec
says: scalar `0` contributes nothing; a whole scalar `1` is added directly to
the window accumulator exactly when `handle_trivial` holds (which the
dispatcher sets exactly on the `skip = 0` window) and is skipped otherwise;
every other scalar contributes nothing when `digit = (scalar >> skip) mod 2^c`
is zero and is added into `bucket[digit - 1]` otherwise (the low-word read
agrees with the spec digit since `c ≤ 64`). -/
theorem naive_window_routing (numBits skip c : ℕ) (exps : List ℕ) (pts : List G)
    (hc : c ≤ 64) (hlen : exps.length = pts.length)
    (hskip : skip ∈ windowSkips numBits c) :
    windowLoop skip c (skip == 0) (exps.map fun e => (e, true)) pts
        (0, List.replicate (2 ^ c - 1) 0) =
      .ok (((if skip = 0 then onesSum (exps.zip pts) else 0),
          (List.range (2 ^ c - 1)).map fun j =>
            bucketContrib skip c (j + 1) (exps.zip pts)), []) := by
  clear hskip
  rw [windowLoop_full skip c (skip == 0) exps pts _ (le_of_eq hlen)]
  rw [foldl_routePair_spec skip c (skip == 0) hc (exps.zip pts) 0 _ (by simp)]
  rw [hlen, List.drop_length]
  have hbuckets : ((List.range (List.replicate (2 ^ c - 1) (0 : G)).length).map fun j =>
      (List.replicate (2 ^ c - 1) (0 : G)).getD j 0 +
        bucketContrib skip c (j + 1) (exps.zip pts)) =
      (List.range (2 ^ c - 1)).map fun j => bucketContrib skip c (j + 1) (exps.zip pts) := by
    rw [List.length_replicate]
    refine List.map_congr_left fun j _ => ?_
    have hrep : (List.replicate (2 ^ c - 1) (0 : G)).getD j 0 = 0 := by
      simp [List.getD]
    rw [hrep, zero_add]
  rw [hbuckets]
  have hacc : (0 : G) + (if (skip == 0) then onesSum (exps.zip pts) else 0) =
      if skip = 0 then onesSum (exps.zip pts) else 0 := by
    rw [zero_add]
    by_cases hs : skip = 0 <;> simp [hs]
  rw [hacc]

theorem naive_window_routing_witness :
    (3 : ℕ) ≤ 64 ∧
      ([0, 1, 2, 9] : List ℕ).length = ([1, 10, 100, 1000] : List ℤ).length ∧
      0 ∈ windowSkips 8 3 ∧
      windowLoop 0 3 (0 == 0) (([0, 1, 2, 9] : List ℕ).map fun e => (e, true))
          ([1, 10, 100, 1000] : List ℤ) (0, List.replicate (2 ^ 3 - 1) 0) =
        .ok (((if (0 : ℕ) = 0 then
              onesSum (([0, 1, 2, 9] : List ℕ).zip ([1, 10, 100, 1000] : List ℤ)) else 0),
            (List.range (2 ^ 3 - 1)).map fun j =>
              bucketContrib 0 3 (j + 1)
                (([0, 1, 2, 9] : List ℕ).zip ([1, 10, 100, 1000] : List ℤ))), []) :=
  ⟨by decide, by decide, by decide,
    naive_window_routing 8 0 3 [0, 1, 2, 9] [1, 10, 100, 1000]
      (by decide) (by decide) (by decide)⟩

end Multiexp

namespace Multiexp

theorem mem_le_sum {n : ℕ} : ∀ {l : List ℕ}, n ∈ l → n ≤ l.sum := by
  intro l hmem
  induction l with
  | nil => simp at hmem
  | cons x t ih =>
    rw [List.sum_cons]
    rcases List.mem_cons.mp hmem with h | h
    · omega
    · have := ih h
      omega

theorem ceilHalf_le (n : ℕ) : ceilHalf n ≤ n := by
  unfold ceilHalf
  omega

theorem ceilHalf_lt (n : ℕ) (h : 2 ≤ n) : ceilHalf n < n := by
  unfold ceilHalf
  omega

theorem ceilHalf_iter_le_one : ∀ (k n : ℕ), n ≤ k → ceilHalf^[k] n ≤ 1 := by
  have hstab : ∀ (j m : ℕ), m ≤ 1 → ceilHalf^[j] m ≤ 1 := by
    intro j
    induction j with
    | zero =>
      intro m hm
      simpa using hm
    | succ j ih =>
      intro m hm
      rw [Function.iterate_succ_apply]
      refine ih _ ?_
      unfold ceilHalf
      omega
  intro k
  induction k with
  | zero =>
    intro n hn
    simp only [Function.iterate_zero_apply]
    omega
  | succ k ih =>
    intro n hn
    rw [Function.iterate_succ_apply]
    by_cases hsmall : n ≤ 1
    · exact hstab _ _ (le_trans (ceilHalf_le n) hsmall)
    · exact ih _ (by have := ceilHalf_lt n (by omega); omega)

variable {F : Type} [Field F] [DecidableEq F]

theorem pairUp_length {α : Type} : ∀ l : List α, (pairUp l).length = l.length / 2
  | [] => by simp [pairUp]
  | [_] => by simp [pairUp]
  | x :: y :: t => by
    rw [pairUp, List.length_cons, pairUp_length t]
    simp only [List.length_cons]
    omega

theorem bucketSplit_fst_length (b : List (F × F)) :
    (bucketSplit b).1.length = b.length % 2 := by
  unfold bucketSplit
  by_cases h1 : b.length ≤ 1
  · rw [if_pos h1]
    show b.length = b.length % 2
    omega
  · rw [if_neg h1]
    by_cases h2 : b.length % 2 = 1
    · rw [if_pos h2]
      show [b.headD (0, 0)].length = b.length % 2
      simp [h2]
    · rw [if_neg h2]
      show ([] : List (F × F)).length = b.length % 2
      simp only [List.length_nil]
      omega

theorem bucketSplit_snd_length (b : List (F × F)) :
    (bucketSplit b).2.length = b.length / 2 := by
  unfold bucketSplit
  by_cases h1 : b.length ≤ 1
  · rw [if_pos h1]
    show ([] : List ((F × F) × (F × F))).length = b.length / 2
    simp only [List.length_nil]
    omega
  · rw [if_neg h1]
    by_cases h2 : b.length % 2 = 1
    · rw [if_pos h2]
      show (pairUp b.tail).length = b.length / 2
      rw [pairUp_length, List.length_tail]
      omega
    · rw [if_neg h2]
      show (pairUp b).length = b.length / 2
      rw [pairUp_length]

theorem bucketSplit_noop (b : List (F × F)) (h : b.length ≤ 1) :
    bucketSplit b = (b, []) := by
  unfold bucketSplit
  rw [if_pos h]

theorem unflatten_map_length {α : Type} :
    ∀ (ns : List ℕ) (l : List α), ns.sum ≤ l.length →
      (unflatten ns l).map List.length = ns := by
  intro ns
  induction ns with
  | nil => intro l _; simp [unflatten]
  | cons n ns ih =>
    intro l h
    rw [List.sum_cons] at h
    rw [unflatten, List.map_cons, List.length_take, ih (l.drop n) (by simp; omega)]
    congr 1
    omega

theorem walkInv_length : ∀ (rxs rps : List F) (t : F),
    (walkInv rxs rps t).length = min rxs.length rps.length := by
  intro rxs
  induction rxs with
  | nil => intro rps t; rw [walkInv_nil]; simp
  | cons x rxs ih =>
    intro rps t
    cases rps with
    | nil => rfl
    | cons p rps =>
      rw [walkInv_cons, List.length_cons, ih]
      simp only [List.length_cons]
      omega

theorem prefixProdsAux_length (t : F) : ∀ xs : List F,
    (prefixProdsAux t xs).length = xs.length := by
  intro xs
  induction xs generalizing t with
  | nil => simp [prefixProdsAux]
  | cons x l ih => rw [prefixProdsAux, List.length_cons, List.length_cons, ih]

theorem batchInv_length (xs : List F) (l : List F) (h : batchInv xs = some l) :
    l.length = xs.length := by
  unfold batchInv at h
  rcases hf : finv ((prefixProds xs).getLastD 1) with _ | t0
  · rw [hf] at h
    exact absurd h (by simp)
  · rw [hf] at h
    have hl := Option.some.inj h
    subst hl
    rw [List.length_reverse, walkInv_length, List.length_reverse]
    have hpp : (prefixProds xs).length = xs.length := prefixProdsAux_length 1 xs
    have : ((prefixProds xs).reverse.drop 1 ++ [1]).length =
        ((prefixProds xs).length - 1) + 1 := by
      simp
    rw [this, hpp]
    omega

theorem zip_unflatten_lengths :
    ∀ (splits : List (List (F × F) × List ((F × F) × (F × F)))) (l : List (F × F)),
      (splits.map (·.2.length)).sum ≤ l.length →
      (List.zipWith (fun sp seg => sp.1 ++ seg) splits
          (unflatten (splits.map (·.2.length)) l)).map List.length =
        splits.map fun sp => sp.1.length + sp.2.length := by
  intro splits
  induction splits with
  | nil => intro l _; simp
  | cons sp sps ih =>
    intro l h
    rw [List.map_cons, List.sum_cons] at h
    rw [List.map_cons, unflatten, List.zipWith_cons_cons, List.map_cons,
      ih (l.drop sp.2.length) (by simp; omega), List.map_cons]
    congr 1
    rw [List.length_append, List.length_take]
    congr 1
    omega

theorem reduceModel_lengths (bs bs' : List (List (F × F)))
    (h : reduceModel bs = some bs') :
    bs'.map List.length = bs.map fun b => ceilHalf b.length := by
  unfold reduceModel at h
  rcases hbi : batchInv ((((bs.map bucketSplit).map (·.2)).flatten).map pairXDiff)
    with _ | invs
  · rw [hbi] at h
    exact absurd h (by simp)
  · rw [hbi] at h
    have hb' := (Option.some.inj h).symm
    subst hb'
    have hinvlen : invs.length = (((bs.map bucketSplit).map (·.2)).flatten).length := by
      have hx := batchInv_length _ _ hbi
      rw [List.length_map] at hx
      exact hx
    have hflat : (((bs.map bucketSplit).map (·.2)).flatten).length =
        ((bs.map bucketSplit).map (·.2.length)).sum := by
      rw [List.length_flatten, List.map_map]
      rfl
    have hzl : (List.zipWith mergePoint (((bs.map bucketSplit).map (·.2)).flatten)
        invs).length = ((bs.map bucketSplit).map (·.2.length)).sum := by
      rw [List.length_zipWith, hinvlen, hflat]
      simp
    rw [zip_unflatten_lengths (bs.map bucketSplit) _ (le_of_eq hzl.symm)]
    rw [List.map_map]
    refine List.map_congr_left fun b _ => ?_
    show (bucketSplit b).1.length + (bucketSplit b).2.length = ceilHalf b.length
    rw [bucketSplit_fst_length, bucketSplit_snd_length]
    unfold ceilHalf
    omega

theorem batchInv_nil : batchInv ([] : List F) = some [] := by
  have h1 : finv ((prefixProds ([] : List F)).getLastD 1) = some 1⁻¹ := by
    rw [show (prefixProds ([] : List F)).getLastD 1 = 1 from rfl, finv, if_neg one_ne_zero]
  unfold batchInv
  rw [h1]
  rfl

theorem zip_unflatten_empty :
    ∀ splits : List (List (F × F) × List ((F × F) × (F × F))),
      (∀ sp ∈ splits, sp.2 = []) →
      List.zipWith (fun sp seg => sp.1 ++ seg) splits
        (unflatten (splits.map (·.2.length)) ([] : List (F × F))) = splits.map (·.1) := by
  intro splits
  induction splits with
  | nil =>
    intro _
    simp
  | cons sp sps ih =>
    intro hall
    have hsp2 : sp.2 = [] := hall sp (by simp)
    rw [List.map_cons, List.map_cons, hsp2, List.length_nil, unflatten, List.take_nil,
      List.drop_nil, List.zipWith_cons_cons, ih fun q hq => hall q (by simp [hq]),
      List.append_nil]

theorem reduceModel_noop (bs : List (List (F × F))) (h : ∀ b ∈ bs, b.length ≤ 1) :
    reduceModel bs = some bs := by
  unfold reduceModel
  have hsplit : ∀ b ∈ bs, bucketSplit b = (b, []) := fun b hb => bucketSplit_noop b (h b hb)
  have hflat : ((bs.map bucketSplit).map (·.2)).flatten = [] := by
    rw [List.flatten_eq_nil_iff]
    intro l hl
    rw [List.map_map] at hl
    rcases List.mem_map.mp hl with ⟨b, hb, hbl⟩
    have hl2 : (bucketSplit b).2 = l := hbl
    rw [hsplit b hb] at hl2
    exact hl2.symm
  have hempty : (((bs.map bucketSplit).map (·.2)).flatten).map pairXDiff = [] := by
    rw [hflat]
    rfl
  rw [hempty, batchInv_nil]
  show some (List.zipWith (fun sp seg => sp.1 ++ seg) (bs.map bucketSplit)
      (unflatten ((bs.map bucketSplit).map (·.2.length))
        (List.zipWith mergePoint (((bs.map bucketSplit).map (·.2)).flatten) []))) =
    some bs
  rw [List.zipWith_nil_right]
  have hall : ∀ sp ∈ bs.map bucketSplit, sp.2 = ([] : List ((F × F) × (F × F))) := by
    intro sp hsp
    rcases List.mem_map.mp hsp with ⟨b, hb, hbsp⟩
    rw [← hbsp, hsplit b hb]
  rw [zip_unflatten_empty (bs.map bucketSplit) hall, List.map_map]
  have : bs.map ((·.1) ∘ bucketSplit) = bs := by
    have hcongr : bs.map ((·.1) ∘ bucketSplit) = bs.map id := by
      refine List.map_congr_left fun b hb => ?_
      show (bucketSplit b).1 = b
      rw [hsplit b hb]
    rw [hcongr, List.map_id]
  rw [this]

theorem iterateReduce_lengths :
    ∀ (k : ℕ) (bs bs'' : List (List (F × F))), iterateReduce k bs = some bs'' →
      bs''.map List.length = (bs.map List.length).map ceilHalf^[k] := by
  intro k
  induction k with
  | zero =>
    intro bs bs'' h
    have hbs : bs = bs'' := Option.some.inj h
    subst hbs
    simp
  | succ k ih =>
    intro bs bs'' h
    have hstep : iterateReduce (k + 1) bs = (iterateReduce k bs).bind reduceModel := rfl
    rw [hstep] at h
    rcases hmid : iterateReduce k bs with _ | mid
    · rw [hmid] at h
      exact absurd h (by simp)
    · rw [hmid] at h
      have hred : reduceModel mid = some bs'' := h
      have h2 := reduceModel_lengths mid bs'' hred
      rw [h2]
      have h3 : mid.map (fun b => ceilHalf b.length) = (mid.map List.length).map ceilHalf := by
        rw [List.map_map]
        rfl
      rw [h3, ih bs mid hmid, List.map_map, Function.iterate_succ']

/-- C8: the pairwise reduction primitive `reduce` never increases the total
number of buffered points across all buckets, leaves points with no pair
untouched — applying it when every bucket already holds at most one point is
a no-op on the buckets — and repeated invocation eventually collapses every
bucket to at most one point. -/
theorem reduce_size_invariants :
    (∀ bs bs' : List (List (F × F)), reduceModel bs = some bs' →
        totalLen bs' ≤ totalLen bs) ∧
      (∀ bs : List (List (F × F)), (∀ b ∈ bs, b.length ≤ 1) →
        reduceModel bs = some bs) ∧
      ∀ bs : List (List (F × F)), ∃ k, ∀ bs'', iterateReduce k bs = some bs'' →
        ∀ b ∈ bs'', b.length ≤ 1 := by
  refine ⟨?_, reduceModel_noop, ?_⟩
  · intro bs bs' h
    unfold totalLen
    have hl := reduceModel_lengths bs bs' h
    rw [hl]
    exact List.sum_le_sum fun b _ => ceilHalf_le b.length
  · intro bs
    refine ⟨totalLen bs, ?_⟩
    intro bs'' h b hb
    have hl := iterateReduce_lengths (totalLen bs) bs bs'' h
    have hmem : b.length ∈ bs''.map List.length := List.mem_map.mpr ⟨b, hb, rfl⟩
    rw [hl] at hmem
    rcases List.mem_map.mp hmem with ⟨n, hn, hlen⟩
    have hle : n ≤ totalLen bs := by
      unfold totalLen
      exact mem_le_sum hn
    rw [← hlen]
    exact ceilHalf_iter_le_one _ n hle

theorem reduce_size_invariants_witness :
    (reduceModel ([[(1, 1)], [(4, 2)]] : List (List (ZMod 7 × ZMod 7))) =
        some [[(1, 1)], [(4, 2)]] ∧
      totalLen ([[(1, 1)], [(4, 2)]] : List (List (ZMod 7 × ZMod 7))) ≤
        totalLen [[(1, 1)], [(4, 2)]]) ∧
      (∀ b ∈ ([[(6, 2)], []] : List (List (ZMod 7 × ZMod 7))), b.length ≤ 1) ∧
      reduceModel ([[(6, 2)], []] : List (List (ZMod 7 × ZMod 7))) =
        some [[(6, 2)], []] ∧
      ∃ k, ∀ bs'', iterateReduce k
          ([[(1, 1), (2, 3)], [(4, 2)]] : List (List (ZMod 7 × ZMod 7))) = some bs'' →
        ∀ b ∈ bs'', b.length ≤ 1 :=
  ⟨⟨by decide, reduce_size_invariants.1 [[(1, 1)], [(4, 2)]] [[(1, 1)], [(4, 2)]]
      (by decide)⟩, by decide,
    reduce_size_invariants.2.1 [[(6, 2)], []] (by decide),
    reduce_size_invariants.2.2 [[(1, 1), (2, 3)], [(4, 2)]]⟩

theorem toMerge_length (b : List (RefEntry F)) :
    (toMerge b).length = if b.length ≤ 1 then 0 else b.length - b.length % 2 := by
  unfold toMerge
  by_cases h1 : b.length ≤ 1
  · rw [if_pos h1, if_pos h1]
    rfl
  · rw [if_neg h1, if_neg h1]
    by_cases h2 : b.length % 2 = 1
    · rw [if_pos h2, List.length_tail]
      omega
    · rw [if_neg h2]
      omega

theorem mergeAdj_length :
    ∀ (es : List (RefEntry F)) (invs : List F), es.length ≤ invs.length →
      (mergeAdj es invs).length = es.length / 2
  | [], invs, _ => by
    simp [mergeAdj]
  | [e], invs, _ => by
    rcases invs with _ | ⟨i0, _ | ⟨i1, is⟩⟩ <;> simp [mergeAdj]
  | e0 :: e1 :: es, invs, h => by
    rcases invs with _ | ⟨i0, _ | ⟨i1, is⟩⟩
    · simp at h
    · simp at h
    · simp only [mergeAdj, List.length_cons]
      rw [mergeAdj_length es is (by
        simp only [List.length_cons] at h
        omega)]
      omega

theorem roundBucket_length (b : List (RefEntry F)) (invs : List F)
    (h : (toMerge b).length ≤ invs.length) :
    (roundBucket b invs).length = ceilHalf b.length := by
  unfold roundBucket
  by_cases h1 : b.length ≤ 1
  · rw [if_pos h1]
    unfold ceilHalf
    omega
  · rw [if_neg h1]
    rw [toMerge_length, if_neg h1] at h
    by_cases h2 : b.length % 2 = 1
    · rw [if_pos h2, List.length_cons,
        mergeAdj_length b.tail invs (by rw [List.length_tail]; omega)]
      rw [List.length_tail]
      unfold ceilHalf
      omega
    · rw [if_neg h2, mergeAdj_length b invs (by omega)]
      unfold ceilHalf
      omega

theorem roundBucket_small (b : List (RefEntry F)) (invs : List F) (h : b.length ≤ 1) :
    roundBucket b invs = b := by
  unfold roundBucket
  rw [if_pos h]

theorem round_lengths :
    ∀ (bs : List (List (RefEntry F))) (invs : List F),
      ((bs.map toMerge).map List.length).sum ≤ invs.length →
      (List.zipWith roundBucket bs
          (unflatten ((bs.map toMerge).map List.length) invs)).map List.length =
        scheduleStep (bs.map List.length) := by
  intro bs
  induction bs with
  | nil =>
    intro invs _
    simp [scheduleStep]
  | cons b bs ih =>
    intro invs h
    rw [List.map_cons, List.map_cons, List.sum_cons] at h
    rw [List.map_cons, List.map_cons, unflatten, List.zipWith_cons_cons, List.map_cons]
    rw [ih (invs.drop (toMerge b).length) (by rw [List.length_drop]; omega)]
    rw [roundBucket_length b _ (by rw [List.length_take]; omega)]
    rw [scheduleStep, List.map_cons, ← scheduleStep]
    rfl

theorem sum_map_ceilHalf_lt (l : List ℕ) (h : ∃ x ∈ l, 2 ≤ x) :
    (l.map ceilHalf).sum < l.sum := by
  induction l with
  | nil => simp at h
  | cons x t ih =>
    rw [List.map_cons, List.sum_cons, List.sum_cons]
    rcases h with ⟨y, hy, hy2⟩
    rcases List.mem_cons.mp hy with rfl | hyt
    · have h1 : ceilHalf y < y := ceilHalf_lt y hy2
      have h2 : (t.map ceilHalf).sum ≤ t.sum := by
        have := List.sum_le_sum (l := t) (f := ceilHalf) (g := id) fun i _ => ceilHalf_le i
        simpa using this
      omega
    · have h1 : ceilHalf x ≤ x := ceilHalf_le x
      have h2 : (t.map ceilHalf).sum < t.sum := ih ⟨y, hyt, hy2⟩
      omega

theorem trueSums_pos_exists (bs : List (List (RefEntry F))) (h : 0 < trueSums bs) :
    ∃ b ∈ bs, 2 ≤ b.length := by
  by_contra hno
  push_neg at hno
  have hz : trueSums bs = 0 := by
    unfold trueSums
    refine List.sum_eq_zero fun x hx => ?_
    rcases List.mem_map.mp hx with ⟨b, hb, hbx⟩
    have hble : b.length ≤ 1 := by
      have := hno b hb
      omega
    rw [← hbx, if_pos hble]
  omega

end Multiexp

namespace Multiexp

variable {F : Type} [Field F] [DecidableEq F]
variable {G : Type} [AddCommGroup G]

theorem roundsLoop_final (φ : F × F → G) (threshold n : ℕ)
    (bs : List (List (RefEntry F))) (acc : G) (h : trueSums bs < threshold) :
    roundsLoop φ threshold (n + 1) bs acc = some (.ok (finalFold φ bs acc, [])) := by
  unfold roundsLoop
  rw [if_pos h]

theorem roundsLoop_ne_none (φ : F × F → G) (threshold : ℕ) (hth : 0 < threshold) :
    ∀ (n : ℕ) (bs : List (List (RefEntry F))) (acc : G), totalPairs bs < n →
      roundsLoop φ threshold n bs acc ≠ none := by
  intro n
  induction n using Nat.strong_induction_on with
  | _ n ih =>
    intro bs acc hn
    cases n with
    | zero => omega
    | succ m =>
      by_cases hts : trueSums bs < threshold
      · rw [roundsLoop_final φ threshold m bs acc hts]
        simp
      · unfold roundsLoop
        rw [if_neg hts]
        rcases hbi : batchInv (((bs.map toMerge).flatten).map pairXDiff) with _ | invs
        · simp
        · have hinv : invs.length = ((bs.map toMerge).map List.length).sum := by
            have hx := batchInv_length _ _ hbi
            rw [List.length_map, List.length_flatten] at hx
            exact hx
          have hrl := round_lengths bs invs (le_of_eq hinv.symm)
          have hex : ∃ x ∈ bs.map List.length, 2 ≤ x := by
            have hpos : 0 < trueSums bs := by omega
            rcases trueSums_pos_exists bs hpos with ⟨b, hb, hb2⟩
            exact ⟨b.length, List.mem_map.mpr ⟨b, hb, rfl⟩, hb2⟩
          have hdec : totalPairs (List.zipWith roundBucket bs
              (unflatten ((bs.map toMerge).map List.length) invs)) < totalPairs bs := by
            unfold totalPairs
            rw [hrl]
            unfold scheduleStep
            exact sum_map_ceilHalf_lt _ hex
          exact ih m (by omega) _ acc (by unfold totalPairs at hdec hn ⊢; omega)

theorem roundsLoop_ok_empty (φ : F × F → G) (threshold : ℕ) :
    ∀ (n : ℕ) (bs : List (List (RefEntry F))) (acc : G) (g : G)
      (l : List (ℕ × RefEntry F)),
      roundsLoop φ threshold n bs acc = some (.ok (g, l)) → l = [] := by
  intro n
  induction n with
  | zero =>
    intro bs acc g l h
    exact absurd h (by unfold roundsLoop; simp)
  | succ m ih =>
    intro bs acc g l h
    by_cases hts : trueSums bs < threshold
    · rw [roundsLoop_final φ threshold m bs acc hts] at h
      have h2 := Option.some.inj h
      have h3 : (finalFold φ bs acc, ([] : List (ℕ × RefEntry F))) = (g, l) :=
        Except.ok.inj h2
      exact (congrArg Prod.snd h3).symm
    · unfold roundsLoop at h
      rw [if_neg hts] at h
      rcases hbi : batchInv (((bs.map toMerge).flatten).map pairXDiff) with _ | invs
      · rw [hbi] at h
        have h2 := Option.some.inj h
        exact absurd h2 (by simp)
      · rw [hbi] at h
        exact ih _ acc g l h

/-- C10: `reduce_by_ref`'s multi-round loop terminates on every input: each
executed round maps every per-bucket pair count `n` to `n / 2 + n % 2`
(buckets holding 0 or 1 pairs are untouched, the odd leftover pair being
deferred within the round), and once the pairs still needing a merge fall
below the threshold a final direct summation-by-parts adds the remaining
per-bucket ranges into the window's running projective accumulator and
empties the accumulator list. -/
theorem reduceByRef_rounds_terminate (φ : F × F → G) :
    (∀ (b : List (RefEntry F)) (invs : List F), (toMerge b).length ≤ invs.length →
        (roundBucket b invs).length = ceilHalf b.length ∧
          (b.length ≤ 1 → roundBucket b invs = b)) ∧
      (∀ (bs : List (List (RefEntry F))) (invs : List F),
          ((bs.map toMerge).map List.length).sum ≤ invs.length →
          (List.zipWith roundBucket bs
              (unflatten ((bs.map toMerge).map List.length) invs)).map List.length =
            scheduleStep (bs.map List.length)) ∧
      (∀ (threshold : ℕ) (bs : List (List (RefEntry F))) (acc : G),
          trueSums bs < threshold →
          roundsLoop φ threshold (totalPairs bs + 1) bs acc =
            some (.ok (finalFold φ bs acc, []))) ∧
      ∀ (accumulator : List (ℕ × RefEntry F)) (numBuckets threshold : ℕ) (acc : G),
        0 < threshold →
        ∃ r, reduceByRef φ accumulator numBuckets threshold acc = some r ∧
          ∀ (g : G) (l : List (ℕ × RefEntry F)), r = Except.ok (g, l) → l = [] := by
  refine ⟨fun b invs h => ⟨roundBucket_length b invs h, roundBucket_small b invs⟩,
    round_lengths, fun threshold bs acc h => roundsLoop_final φ threshold _ bs acc h,
    fun accumulator numBuckets threshold acc hth => ?_⟩
  have hne := roundsLoop_ne_none φ threshold hth
    (totalPairs (perBucket accumulator numBuckets) + 1)
    (perBucket accumulator numBuckets) acc (by omega)
  rcases hres : roundsLoop φ threshold (totalPairs (perBucket accumulator numBuckets) + 1)
      (perBucket accumulator numBuckets) acc with _ | r
  · exact absurd hres hne
  · refine ⟨r, hres, fun g l hr => ?_⟩
    subst hr
    exact roundsLoop_ok_empty φ threshold _ _ acc g l hres

theorem reduceByRef_rounds_terminate_witness :
    ((toMerge [(((1 : ZMod 5), 1), (2, 3)), (((1 : ZMod 5), 1), (2, 3)),
          (((1 : ZMod 5), 1), (2, 3))]).length ≤ ([1, 1] : List (ZMod 5)).length ∧
        ((roundBucket [(((1 : ZMod 5), 1), (2, 3)), (((1 : ZMod 5), 1), (2, 3)),
              (((1 : ZMod 5), 1), (2, 3))] ([1, 1] : List (ZMod 5))).length =
            ceilHalf ([(((1 : ZMod 5), 1), (2, 3)), (((1 : ZMod 5), 1), (2, 3)),
              (((1 : ZMod 5), 1), (2, 3))] : List (RefEntry (ZMod 5))).length ∧
          (([(((1 : ZMod 5), 1), (2, 3)), (((1 : ZMod 5), 1), (2, 3)),
              (((1 : ZMod 5), 1), (2, 3))] : List (RefEntry (ZMod 5))).length ≤ 1 →
            roundBucket [(((1 : ZMod 5), 1), (2, 3)), (((1 : ZMod 5), 1), (2, 3)),
              (((1 : ZMod 5), 1), (2, 3))] ([1, 1] : List (ZMod 5)) =
              [(((1 : ZMod 5), 1), (2, 3)), (((1 : ZMod 5), 1), (2, 3)),
                (((1 : ZMod 5), 1), (2, 3))]))) ∧
      (trueSums ([[(((1 : ZMod 5), 1), (2, 3))]] : List (List (RefEntry (ZMod 5)))) <
          64 ∧
        roundsLoop (fun _ => (1 : ℤ)) 64
            (totalPairs ([[(((1 : ZMod 5), 1), (2, 3))]] :
              List (List (RefEntry (ZMod 5)))) + 1)
            [[(((1 : ZMod 5), 1), (2, 3))]] 0 =
          some (.ok (finalFold (fun _ => (1 : ℤ))
            [[(((1 : ZMod 5), 1), (2, 3))]] 0, []))) ∧
      (0 : ℕ) < 64 ∧
      ∃ r, reduceByRef (fun _ => (1 : ℤ)) [(0, (((1 : ZMod 5), 1), (2, 3)))] 7 64 0 =
          some r ∧
        ∀ (g : ℤ) (l : List (ℕ × RefEntry (ZMod 5))), r = Except.ok (g, l) → l = [] :=
  ⟨⟨by decide, (reduceByRef_rounds_terminate (fun _ => (1 : ℤ))).1 _ _ (by decide)⟩,
    ⟨by decide, (reduceByRef_rounds_terminate (fun _ => (1 : ℤ))).2.2.1 64 _ 0 (by decide)⟩,
    by decide,
    (reduceByRef_rounds_terminate (fun _ => (1 : ℤ))).2.2.2 _ 7 64 0 (by decide)⟩

theorem batchInv_of_prod_zero (xs : List F) (h : xs.prod = 0) : batchInv xs = none := by
  have hlast : (prefixProds xs).getLastD 1 = xs.prod := by
    simpa using prefixProdsAux_getLastD 1 xs
  have h0 : finv ((prefixProds xs).getLastD 1) = none := by
    rw [hlast, finv, if_pos h]
  unfold batchInv
  rw [h0]

/-- C3 counterexample: a bucket holding two points with equal x-coordinate
makes the accumulated product of x-differences zero; `reduce` then `unwrap`s
the failed inversion — a panic (modelled `none`), not a returned
`DivisionByZero` error value. -/
theorem reduce_divzero_panics_cex :
    reduceModel ([[(1, 1), (1, 2)]] : List (List (ZMod 5 × ZMod 5))) = none := by
  decide

/-- C3 (amended): on a zero accumulated product of x-coordinate differences,
`reduce_by_ref` surfaces the unrecoverable `DivisionByZero` error value to
the caller (`tmp.inverse().ok_or(SynthesisError::DivisionByZero)?`) so the
enclosing window task returns it as a result, while `reduce` instead panics
on `tmp.inverse().unwrap()` and returns no error value at all. -/
theorem reduce_error_behavior (φ : F × F → G) :
    (∀ bs : List (List (F × F)),
        ((((bs.map bucketSplit).map (·.2)).flatten).map pairXDiff).prod = 0 →
        reduceModel bs = none) ∧
      ∀ (accumulator : List (ℕ × RefEntry F)) (numBuckets threshold : ℕ) (acc : G),
        threshold ≤ trueSums (perBucket accumulator numBuckets) →
        ((((perBucket accumulator numBuckets).map toMerge).flatten).map
            pairXDiff).prod = 0 →
        reduceByRef φ accumulator numBuckets threshold acc =
          some (.error .divisionByZero) := by
  constructor
  · intro bs h
    unfold reduceModel
    rw [batchInv_of_prod_zero _ h]
  · intro accumulator numBuckets threshold acc hth hz
    unfold reduceByRef roundsLoop
    rw [if_neg (not_lt.mpr hth), batchInv_of_prod_zero _ hz]

theorem reduce_error_behavior_witness :
    (((((([[(1, 1), (1, 2)]] : List (List (ZMod 5 × ZMod 5))).map
            bucketSplit).map (·.2)).flatten).map pairXDiff).prod = 0 ∧
        reduceModel ([[(1, 1), (1, 2)]] : List (List (ZMod 5 × ZMod 5))) = none) ∧
      (64 : ℕ) ≤ trueSums (perBucket
          (List.replicate 64 ((0 : ℕ), (((1 : ZMod 5), 1), (1, 2)))) 7) ∧
      ((((perBucket (List.replicate 64 ((0 : ℕ), (((1 : ZMod 5), 1), (1, 2)))) 7).map
            toMerge).flatten).map pairXDiff).prod = 0 ∧
      reduceByRef (fun _ => (1 : ℤ))
          (List.replicate 64 ((0 : ℕ), (((1 : ZMod 5), 1), (1, 2)))) 7 64 0 =
        some (.error .divisionByZero) :=
  ⟨⟨by decide, (reduce_error_behavior (F := ZMod 5) (fun _ => (1 : ℤ))).1 _ (by decide)⟩,
    by decide, by decide,
    (reduce_error_behavior (fun _ => (1 : ℤ))).2 _ 7 64 0 (by decide) (by decide)⟩

/-- C2 (code bug): on the single input pair (scalar `2`, point `P`), window 0
of `dense_affine_multiexp_inner_by_ref` leaves `P` in bucket 1's pending slot
after the input pass — the `chains_bitvec` bit is set, `previous_chain_elem`
holds `P` and the pair accumulator is empty — yet the task returns the zero
accumulator: the unpaired pending point is never added into the window's
projective accumulator before the task returns.  The window's digit sum is
`2 • P ≠ 0`. -/
theorem byRef_pending_point_dropped :
    byRefInputState (G := ℤ) (fun _ => 1) 0 3 true [2] [((1 : ZMod 5), 1)] =
        .ok { bitvec := [false, true, false, false, false, false, false]
              prev := [(0, 0), (1, 1), (0, 0), (0, 0), (0, 0), (0, 0), (0, 0)]
              accumulator := []
              acc := 0 } ∧
      byRefWindow (G := ℤ) (fun _ => 1) 0 3 true [2] [((1 : ZMod 5), 1)] = .ok 0 ∧
      (2 : ℤ) • (1 : ℤ) ≠ 0 :=
  ⟨by decide, by decide, by decide⟩

set_option maxRecDepth 40000 in
/-- C1 (code bug): on the single input pair (scalar `2`, point `P`), the
naive `multiexp` entry point returns `2 • P` — the direct per-element
evaluation — while `dense_affine_multiexp_by_ref` (with the same `c = 3`
chosen for fewer than 32 exponents) returns the group identity, because the
by-ref reducer drops the unpaired pending point.  The three MSM entry points
therefore do not all return `Σ s_i • P_i`, nor agree with each other. -/
theorem msm_entry_points_disagree :
    naiveMSM [2] [(1 : ℤ)] = 2 ∧
      multiexpModel 254 3 [2] [(1 : ℤ)] = .ok 2 ∧
      byRefMultiexp (G := ℤ) (fun _ => 1) 254 3 [2] [((1 : ZMod 5), 1)] = .ok 0 ∧
      (0 : ℤ) ≠ 2 :=
  ⟨by decide, by decide, by decide, by decide⟩

end Multiexp

namespace Multiexp

variable {G : Type} [AddCommGroup G]

theorem digit_lt (e skip c : ℕ) : digit e skip c < 2 ^ c :=
  Nat.mod_lt _ (Nat.pos_pow_of_pos c (by omega))

theorem weightedSum_set (bs : List G) (j : ℕ) (p : G) (hj : j < bs.length) :
    weightedSum (bs.set j (bs.getD j 0 + p)) = weightedSum bs + (j + 1) • p := by
  unfold weightedSum
  rw [List.length_set]
  have hterm : ∀ i ∈ Finset.range bs.length,
      (i + 1) • (bs.set j (bs.getD j 0 + p)).getD i 0 =
        (i + 1) • bs.getD i 0 + (if i = j then (j + 1) • p else 0) := by
    intro i _
    rw [getD_set_general]
    by_cases hij : j = i
    · subst hij
      rw [if_pos ⟨rfl, hj⟩, if_pos rfl, smul_add]
    · rw [if_neg (by tauto), if_neg (by tauto), add_zero]
  rw [Finset.sum_congr rfl hterm, Finset.sum_add_distrib,
    Finset.sum_ite_eq' (Finset.range bs.length) j fun _ => (j + 1) • p,
    if_pos (Finset.mem_range.mpr hj)]

theorem routePair_value (skip c : ℕ) (triv : Bool) (st : G × List G) (e : ℕ) (p : G)
    (hlen : st.2.length = 2 ^ c - 1) :
    (routePair skip c triv st e p).1 + weightedSum (routePair skip c triv st e p).2 =
      st.1 + weightedSum st.2 + windowContrib skip c triv e p := by
  unfold routePair windowContrib
  by_cases he0 : e = 0
  · simp [he0]
  · by_cases he1 : e = 1
    · cases triv <;> simp [he0, he1] <;> abel
    · by_cases hdz : digit e skip c = 0
      · simp [he0, he1, hdz]
      · rw [if_neg he0, if_neg he1, if_neg he0, if_neg he1, if_pos hdz]
        simp only
        have hd1 : 1 ≤ digit e skip c := by omega
        have hdlt : digit e skip c < 2 ^ c := digit_lt e skip c
        have hjlt : digit e skip c - 1 < st.2.length := by omega
        rw [weightedSum_set st.2 _ p hjlt]
        have hd : digit e skip c - 1 + 1 = digit e skip c := by omega
        rw [hd]
        abel

theorem routePair_snd_length (skip c : ℕ) (triv : Bool) (st : G × List G) (e : ℕ)
    (p : G) : (routePair skip c triv st e p).2.length = st.2.length := by
  unfold routePair
  by_cases he0 : e = 0
  · simp [he0]
  · by_cases he1 : e = 1
    · cases triv <;> simp [he0, he1]
    · by_cases hdz : digit e skip c = 0 <;> simp [he0, he1, hdz, List.length_set]

theorem foldl_routePair_value (skip c : ℕ) (triv : Bool) (pairs : List (ℕ × G)) :
    ∀ st : G × List G, st.2.length = 2 ^ c - 1 →
      (pairs.foldl (fun s ep => routePair skip c triv s ep.1 ep.2) st).1 +
          weightedSum (pairs.foldl (fun s ep => routePair skip c triv s ep.1 ep.2) st).2 =
        st.1 + weightedSum st.2 +
          (pairs.map fun ep => windowContrib skip c triv ep.1 ep.2).sum := by
  induction pairs with
  | nil =>
    intro st _
    simp
  | cons ep rest ih =>
    intro st hst
    rw [List.foldl_cons, ih _ (by rw [routePair_snd_length]; exact hst),
      routePair_value skip c triv st ep.1 ep.2 hst, List.map_cons, List.sum_cons]
    abel

theorem sumByParts_fst (buckets : List G) (acc0 : G) :
    (sumByParts buckets acc0).1 = acc0 + weightedSum buckets := by
  rw [sumByParts_spec]

theorem windowTask_value (skip c : ℕ) (triv : Bool) (exps : List ℕ) (pts : List G)
    (hlen : exps.length = pts.length) :
    windowTask skip c triv (exps.map fun e => (e, true)) pts =
      .ok (((exps.zip pts).map fun ep => windowContrib skip c triv ep.1 ep.2).sum) := by
  unfold windowTask
  rw [windowLoop_full skip c triv exps pts _ (le_of_eq hlen)]
  show Except.ok (sumByParts
      ((exps.zip pts).foldl (fun s ep => routePair skip c triv s ep.1 ep.2)
        (0, List.replicate (2 ^ c - 1) (0 : G))).2
      ((exps.zip pts).foldl (fun s ep => routePair skip c triv s ep.1 ep.2)
        (0, List.replicate (2 ^ c - 1) (0 : G))).1).1 = _
  rw [sumByParts_fst]
  have hval := foldl_routePair_value skip c triv (exps.zip pts)
    (0, List.replicate (2 ^ c - 1) (0 : G)) (by simp)
  rw [hval, weightedSum_replicate_zero]
  rw [zero_add, zero_add]

theorem ceil_mul_ge (a c : ℕ) (hc : 0 < c) : a ≤ ((a + c - 1) / c) * c := by
  rcases Nat.eq_zero_or_pos a with rfl | ha
  · simp
  · have hq : (a + c - 1) / c = (a - 1) / c + 1 := by
      have hrw : a + c - 1 = (a - 1) + c := by omega
      rw [hrw, Nat.add_div_right _ hc]
    rw [hq]
    have hdm := Nat.div_add_mod (a - 1) c
    have hmod : (a - 1) % c < c := Nat.mod_lt _ hc
    rw [Nat.succ_mul, Nat.mul_comm]
    omega

theorem sum_div_mod (c : ℕ) :
    ∀ (W e : ℕ), e < 2 ^ (W * c) →
      ∑ w ∈ Finset.range W, 2 ^ (w * c) * (e / 2 ^ (w * c) % 2 ^ c) = e := by
  intro W
  induction W with
  | zero =>
    intro e he
    simp only [Nat.zero_mul, pow_zero] at he
    have he0 : e = 0 := by omega
    simp [he0]
  | succ W ih =>
    intro e he
    rw [Finset.sum_range_succ']
    have hstep : ∀ w, 2 ^ ((w + 1) * c) * (e / 2 ^ ((w + 1) * c) % 2 ^ c) =
        2 ^ c * (2 ^ (w * c) * (e / 2 ^ c / 2 ^ (w * c) % 2 ^ c)) := by
      intro w
      have h1 : (w + 1) * c = c + w * c := by ring
      have h2 : e / 2 ^ ((w + 1) * c) = e / 2 ^ c / 2 ^ (w * c) := by
        rw [h1, pow_add, ← Nat.div_div_eq_div_mul]
      rw [h2, h1, pow_add]
      ring
    rw [Finset.sum_congr rfl fun w _ => hstep w, ← Finset.mul_sum]
    have hdivlt : e / 2 ^ c < 2 ^ (W * c) := by
      have hpow : (2 : ℕ) ^ ((W + 1) * c) = 2 ^ (W * c) * 2 ^ c := by
        rw [← pow_add]
        ring_nf
      rw [Nat.div_lt_iff_lt_mul (Nat.pos_pow_of_pos c (by omega))]
      calc e < 2 ^ ((W + 1) * c) := he
        _ = 2 ^ (W * c) * 2 ^ c := hpow
    rw [ih (e / 2 ^ c) hdivlt]
    simp only [Nat.zero_mul, pow_zero, Nat.div_one, one_mul]
    exact Nat.div_add_mod e (2 ^ c)

theorem digit_eq_div_mod (e skip c : ℕ) (hc : c ≤ 64) :
    digit e skip c = e / 2 ^ skip % 2 ^ c := by
  rw [digit_eq_specDigit e skip c hc]
  unfold specDigit
  rw [Nat.shiftRight_eq_div_pow]

theorem scalar_windows_total (numBits c : ℕ) (hc : 0 < c) (hc64 : c ≤ 64)
    (e : ℕ) (he : e < 2 ^ numBits) (p : G) :
    ∑ i ∈ Finset.range ((numBits + c - 1) / c),
        2 ^ (i * c) • windowContrib (i * c) c (i * c == 0) e p = e • p := by
  by_cases he0 : e = 0
  · subst he0
    simp [windowContrib]
  · by_cases he1 : e = 1
    · subst he1
      have hnb : 1 ≤ numBits := by
        by_contra hn
        push_neg at hn
        have : numBits = 0 := by omega
        rw [this] at he
        simp at he
      have hWpos : 0 < (numBits + c - 1) / c := Nat.div_pos (by omega) hc
      have hterm : ∀ i ∈ Finset.range ((numBits + c - 1) / c),
          2 ^ (i * c) • windowContrib (i * c) c (i * c == 0) 1 p =
            if i = 0 then p else 0 := by
        intro i _
        by_cases hi : i = 0
        · subst hi
          simp [windowContrib]
        · have hic : i * c ≠ 0 := Nat.mul_ne_zero hi (by omega)
          have hbeq : (i * c == 0) = false := by
            simp [hic]
          unfold windowContrib
          rw [if_neg one_ne_zero, if_pos rfl, hbeq]
          simp [hi]
      rw [Finset.sum_congr rfl hterm,
        Finset.sum_ite_eq' (Finset.range ((numBits + c - 1) / c)) 0 fun _ => p,
        if_pos (Finset.mem_range.mpr hWpos), one_smul]
    · have hterm : ∀ i ∈ Finset.range ((numBits + c - 1) / c),
          2 ^ (i * c) • windowContrib (i * c) c (i * c == 0) e p =
            (2 ^ (i * c) * (e / 2 ^ (i * c) % 2 ^ c)) • p := by
        intro i _
        unfold windowContrib
        rw [if_neg he0, if_neg he1, digit_eq_div_mod e (i * c) c hc64, mul_smul]
      rw [Finset.sum_congr rfl hterm, ← Finset.sum_smul]
      have hbound : e < 2 ^ ((numBits + c - 1) / c * c) :=
        lt_of_lt_of_le he (Nat.pow_le_pow_right (by omega) (ceil_mul_ge numBits c hc))
      rw [sum_div_mod c _ e hbound]

theorem sum_listsum_comm (W : ℕ) (l : List (ℕ × G)) (f : ℕ → ℕ × G → G) :
    ∑ i ∈ Finset.range W, (l.map (f i)).sum =
      (l.map fun ep => ∑ i ∈ Finset.range W, f i ep).sum := by
  induction l with
  | nil => simp
  | cons ep t ih =>
    simp only [List.map_cons, List.sum_cons, Finset.sum_add_distrib, ih]

/-- Supporting result for C1: the naive `multiexp` entry point computes the
direct per-element evaluation `Σ s_i • P_i` on every full-density input with
matching lengths, scalars below `2^numBits`, and window width `0 < c ≤ 64`. -/
theorem multiexp_computes_naive (numBits c : ℕ) (hc : 0 < c) (hc64 : c ≤ 64)
    (exps : List ℕ) (pts : List G) (hlen : exps.length = pts.length)
    (hbound : ∀ e ∈ exps, e < 2 ^ numBits) :
    multiexpModel numBits c exps pts = .ok (naiveMSM exps pts) := by
  unfold multiexpModel
  have hmap : ((windowSkips numBits c).map fun skip =>
      windowTask skip c (skip == 0) (exps.map fun e => (e, true)) pts) =
      ((windowSkips numBits c).map fun skip =>
        ((exps.zip pts).map fun ep => windowContrib skip c (skip == 0) ep.1 ep.2).sum).map
        Except.ok := by
    rw [List.map_map]
    exact List.map_congr_left fun skip _ =>
      windowTask_value skip c (skip == 0) exps pts hlen
  rw [hmap, joinChunks_ok]
  congr 1
  have hWlen : (windowSkips numBits c).length = (numBits + c - 1) / c := by
    unfold windowSkips
    rw [List.length_map, List.length_range]
  have hskipi : ∀ (i : ℕ) (hi : i < (windowSkips numBits c).length),
      (windowSkips numBits c)[i] = i * c := by
    intro i hi
    unfold windowSkips
    rw [List.getElem_map, List.getElem_range]
  have hgetD : ∀ i ∈ Finset.range ((windowSkips numBits c).map fun skip =>
        ((exps.zip pts).map fun ep => windowContrib skip c (skip == 0) ep.1 ep.2).sum).length,
      2 ^ (i * c) • ((windowSkips numBits c).map fun skip =>
          ((exps.zip pts).map fun ep => windowContrib skip c (skip == 0) ep.1 ep.2).sum).getD
        i 0 =
        ((exps.zip pts).map fun ep =>
          2 ^ (i * c) • windowContrib (i * c) c (i * c == 0) ep.1 ep.2).sum := by
    intro i hi
    rw [Finset.mem_range] at hi
    rw [List.getD_eq_getElem _ _ hi, List.getElem_map,
      hskipi i (by rw [List.length_map] at hi; exact hi), List.smul_sum, List.map_map]
    rfl
  rw [Finset.sum_congr rfl hgetD]
  rw [List.length_map, hWlen]
  rw [sum_listsum_comm ((numBits + c - 1) / c) (exps.zip pts)
    fun i ep => 2 ^ (i * c) • windowContrib (i * c) c (i * c == 0) ep.1 ep.2]
  unfold naiveMSM
  refine congrArg List.sum (List.map_congr_left fun ep hep => ?_)
  have hmem := List.of_mem_zip hep
  exact scalar_windows_total numBits c hc hc64 ep.1 (hbound ep.1 hmem.1) ep.2

end Multiexp
